import Mathlib

/-!
Verification of the contest routine `solve` (uploads/1748931635697-cp.cpp).

A shallow embedding of the modular-arithmetic helpers (`mod`, `pls`, `mul`,
`binMul`, `power`) and of the per-test-case routine `solve`, followed by the
properties proved about them.

Conventions of the embedding:
* the C++ type `int` (`#define int long long`) is `Int`; the exact (unbounded)
  semantics is the main model, and a second model with explicit 64-bit
  wrap-around (`wrap64`, `binMulWith addWrap64`, `powerWith addWrap64`) is given
  for the exponentiation helpers; the two agree for bases in `[0, 2^62)`, in
  particular for the base 2 that `solve` uses, and differ beyond (the sum `a+a`
  wraps);
* C++ `%` truncates towards zero: `Int.tmod`;
* `b & 1` is `Int.land b 1`, `b >>= 1` is `b >>> 1` (arithmetic shift);
* a `while` loop is a recursion on a fuel counter; the wrapper chooses
  `b.toNat` as fuel, which is enough whenever the loop terminates at all;
* code that can fail returns `Except Fault _`.
-/

namespace CP

/-- Ways in which an execution of the embedded code fails to produce a value. -/
inductive Fault where
  | outOfRange
  | diverges
  | badInput
  | overflow
  deriving DecidableEq

instance instDecidableEqExcept {ε α : Type} [DecidableEq ε] [DecidableEq α] :
    DecidableEq (Except ε α)
  | .ok x, .ok y => if h : x = y then isTrue (by rw [h]) else isFalse (by simpa using h)
  | .error x, .error y => if h : x = y then isTrue (by rw [h]) else isFalse (by simpa using h)
  | .ok _, .error _ => isFalse (by simp)
  | .error _, .ok _ => isFalse (by simp)

/-- `const int M=998244353;` -/
def M : Int := 998244353

/-- `int mod(int x){ return (x%M+M)%M; }` -/
def mod (x : Int) : Int := (x.tmod M + M).tmod M

/-- `int pls(int a,int b){ return mod(mod(a)+mod(b)); }` -/
def pls (a b : Int) : Int := mod (mod a + mod b)

/-- `int mul(int a,int b){ return mod(mod(a)*mod(b)); }` -/
def mul (a b : Int) : Int := mod (mod a * mod b)

/-- The loop of `binMul`:
`while(b){ if(b&1){ ans=(ans+a)%M; } a=(a+a)%M; b>>=1; } return ans;`.
The loop condition is tested first; one unit of fuel is spent per iteration. -/
def binMulLoop (fuel : Nat) (ans a b : Int) : Except Fault Int :=
  if b = 0 then .ok ans
  else
    match fuel with
    | 0 => .error .diverges
    | fuel + 1 =>
      binMulLoop fuel (if Int.land b 1 ≠ 0 then (ans + a).tmod M else ans)
        ((a + a).tmod M) (b >>> 1)

/-- `int binMul(int a,int b){ int ans=0; while(b){...} return ans; }` -/
def binMul (a b : Int) : Except Fault Int :=
  binMulLoop b.toNat 0 a b

/-- The loop of `power`:
`while(b){ if(b&1) ans=binMul(ans,a); a=binMul(a,a); b>>=1; } return ans;`. -/
def powerLoop (fuel : Nat) (ans a b : Int) : Except Fault Int :=
  if b = 0 then .ok ans
  else
    match fuel with
    | 0 => .error .diverges
    | fuel + 1 =>
      match (if Int.land b 1 ≠ 0 then binMul ans a else .ok ans) with
      | .error e => .error e
      | .ok ans1 =>
        match binMul a a with
        | .error e => .error e
        | .ok a1 => powerLoop fuel ans1 a1 (b >>> 1)

/-- `int power(int a,int b){ int ans=1; while(b){...} return ans; }` -/
def power (a b : Int) : Except Fault Int :=
  powerLoop b.toNat 1 a b

/-! ## The per-test-case routine -/

/-- `typedef pair<int,int> pii;` as used in `m`: (position, tag), tag 1 for
`a` and tag 2 for `b`. -/
abbrev Entry := Int × Int

/-- `map<int,vector<pii>> m;` as an association list in increasing key order
(the iteration order of `std::map`). -/
abbrev ValueMap := List (Int × List Entry)

/-- `m[k].pb(x)`: append `x` to the vector stored under `k`, creating the key
at its place in the key order when it is absent. -/
def push : ValueMap → Int → Entry → ValueMap
  | [], k, x => [(k, [x])]
  | (k1, v) :: rest, k, x =>
    if k < k1 then (k, [x]) :: (k1, v) :: rest
    else if k = k1 then (k1, v ++ [x]) :: rest
    else (k1, v) :: push rest k x

/-- `m.rbegin()`: the entry with the largest key; dereferencing it on an
empty map is a fault. -/
def rbegin (m : ValueMap) : Except Fault (Int × List Entry) :=
  match m.getLast? with
  | none => .error .outOfRange
  | some e => .ok e

/-- Checked read `v[k]` of a vector. -/
def index (v : List Int) (k : Int) : Except Fault Int :=
  if k < 0 then .error .outOfRange
  else
    match v[k.toNat]? with
    | none => .error .outOfRange
    | some x => .ok x

/-- Checked write `v[k]=x` of a vector. -/
def store (v : List Int) (k : Int) (x : Int) : Except Fault (List Int) :=
  if k < 0 then .error .outOfRange
  else if k.toNat < v.length then .ok (v.set k.toNat x)
  else .error .outOfRange

/-- The scan variables `mx`, `ix`, `ar` of `solve`. -/
structure Sel where
  mx : Int
  ix : Int
  ar : Int
  deriving DecidableEq

/-- `int mx=-1,ix=-1,ar=0;` -/
def Sel.init : Sel := ⟨-1, -1, 0⟩

/-- One iteration of the inner loop `f(j,0,t.size())` on the entry `t[j]`. -/
def scanStep (a b : List Int) (i : Int) (s : Sel) (e : Entry) : Except Fault Sel :=
  let arr := e.2
  let dif : Int := ((i - e.1).natAbs : Int)
  if arr = 1 then
    match index b dif with
    | .error f => .error f
    | .ok v => if v > s.mx then .ok ⟨v, dif, 1⟩ else .ok s
  else if arr = 2 then
    match index a dif with
    | .error f => .error f
    | .ok v => if v > s.mx then .ok ⟨v, dif, 2⟩ else .ok s
  else .ok s

/-- The inner loop `f(j,0,t.size())` over the vector `t`, in order. -/
def scan (a b : List Int) (i : Int) : List Entry → Sel → Except Fault Sel
  | [], s => .ok s
  | e :: t, s =>
    match scanStep a b i s e with
    | .error f => .error f
    | .ok s1 => scan a b i t s1

/-- The value `(power(2,x[ix])+power(2,y[abs(ix-i)]))%M` of lines 177 and 181. -/
def combine (x y : List Int) (i ix : Int) : Except Fault Int :=
  match index x ix with
  | .error f => .error f
  | .ok e1 =>
    match power 2 e1 with
    | .error f => .error f
    | .ok p =>
      match index y (((ix - i).natAbs : Nat) : Int) with
      | .error f => .error f
      | .ok e2 =>
        match power 2 e2 with
        | .error f => .error f
        | .ok q => .ok ((p + q).tmod M)

/-- The two insertions of lines 148-149 at position `i`. -/
def insertBoth (a b : List Int) (m : ValueMap) (i : Int) : Except Fault ValueMap :=
  match index a i with
  | .error f => .error f
  | .ok ai =>
    match index b i with
    | .error f => .error f
    | .ok bi => .ok (push (push m ai (i, 1)) bi (i, 2))

/-- The variables of `solve` that live across iterations of the outer loop. -/
structure LoopState where
  m : ValueMap
  ans : List Int
  deriving DecidableEq

/-- The body of the outer loop `f(i,0,n)` (lines 147-183). -/
def solveStep (a b : List Int) (s : LoopState) (i : Int) : Except Fault LoopState :=
  match insertBoth a b s.m i with
  | .error f => .error f
  | .ok m2 =>
    match rbegin m2 with
    | .error f => .error f
    | .ok it =>
      match scan a b i it.2 Sel.init with
      | .error f => .error f
      | .ok sel =>
        if sel.ar = 1 then
          match combine b a i sel.ix with
          | .error f => .error f
          | .ok v =>
            match store s.ans i v with
            | .error f => .error f
            | .ok ans1 => .ok ⟨m2, ans1⟩
        else if sel.ar = 2 then
          match combine a b i sel.ix with
          | .error f => .error f
          | .ok v =>
            match store s.ans i v with
            | .error f => .error f
            | .ok ans1 => .ok ⟨m2, ans1⟩
        else .ok ⟨m2, s.ans⟩

/-- The outer loop `f(i,0,n)` run over the given positions. -/
def solveLoop (a b : List Int) : List Nat → LoopState → Except Fault LoopState
  | [], s => .ok s
  | i :: rest, s =>
    match solveStep a b s (i : Int) with
    | .error f => .error f
    | .ok s1 => solveLoop a b rest s1

/-- `map<int,vector<pii>>m; vi ans(n);` -/
def LoopState.init (n : Nat) : LoopState := ⟨[], List.replicate n 0⟩

/-- The computation of `solve` (lines 143-183) on `n` and the two vectors
already read: the vector `ans` after the outer loop. -/
def solve (n : Nat) (a b : List Int) : Except Fault (List Int) :=
  match solveLoop a b (List.range n) (LoopState.init n) with
  | .error f => .error f
  | .ok s => .ok s.ans

/-- `f(i,0,n) cout<<ans[i]<<" "; cout<<nl;` -/
def printLine (ans : List Int) : String :=
  String.join (ans.map (fun x => toString x ++ " ")) ++ "\n"

/-- `void input(vi &a)`: fill a vector of size `n` from the token stream. -/
def input (n : Nat) (toks : List Int) : Except Fault (List Int × List Int) :=
  if toks.length < n then .error .badInput
  else .ok (toks.take n, toks.drop n)

/-- The whole of `void solve()`: read `n`, `a`, `b` from the token stream, run the
computation, and return the printed line with the rest of the stream. -/
def solveCase (toks : List Int) : Except Fault (String × List Int) :=
  match toks with
  | [] => .error .badInput
  | n :: rest =>
    if n < 0 then .error .badInput
    else
      match input n.toNat rest with
      | .error f => .error f
      | .ok (a, rest1) =>
        match input n.toNat rest1 with
        | .error f => .error f
        | .ok (b, rest2) =>
          match solve n.toNat a b with
          | .error f => .error f
          | .ok ans => .ok (printLine ans, rest2)

/-- `while(t--) solve();` with the output accumulated. -/
def mainLoop : Nat → List Int → String → Except Fault String
  | 0, _, out => .ok out
  | t + 1, toks, out =>
    match solveCase toks with
    | .error f => .error f
    | .ok (line, rest) => mainLoop t rest (out ++ line)

/-- `int32_t main()`: `cin>>t; while(t--) solve();`, from the token stream to
the text written to standard output. -/
def main (toks : List Int) : Except Fault String :=
  match toks with
  | [] => .error .badInput
  | t :: rest =>
    if t < 0 then .error .badInput
    else mainLoop t.toNat rest ""

/-! ## The exponentiation helpers under a given machine addition -/

/-- Reduction of an integer to the range of a signed 64-bit `long long`
(two's-complement wrap-around). -/
def wrap64 (x : Int) : Int := (x + 2 ^ 63) % 2 ^ 64 - 2 ^ 63

/-- Addition of unbounded integers. -/
def addExact (x y : Int) : Except Fault Int := .ok (x + y)

/-- Addition of `long long` with wrap-around. -/
def addWrap64 (x y : Int) : Except Fault Int := .ok (wrap64 (x + y))

/-- Addition that faults unless the sum lies in `[0, 2*M)`. -/
def addChecked (x y : Int) : Except Fault Int :=
  if 0 ≤ x + y ∧ x + y < 2 * M then .ok (x + y) else .error .overflow

/-- The expression `(x+y)%M` with the sum computed by `add`. -/
def addMod (add : Int → Int → Except Fault Int) (x y : Int) : Except Fault Int :=
  match add x y with
  | .error f => .error f
  | .ok s => .ok (s.tmod M)

/-- The loop of `binMul` with the two sums `ans+a` and `a+a` computed by `add`. -/
def binMulLoopWith (add : Int → Int → Except Fault Int) (fuel : Nat) (ans a b : Int) :
    Except Fault Int :=
  if b = 0 then .ok ans
  else
    match fuel with
    | 0 => .error .diverges
    | fuel + 1 =>
      match (if Int.land b 1 ≠ 0 then addMod add ans a else .ok ans) with
      | .error f => .error f
      | .ok ans1 =>
        match addMod add a a with
        | .error f => .error f
        | .ok a1 => binMulLoopWith add fuel ans1 a1 (b >>> 1)

/-- `binMul` with the sums computed by `add`. -/
def binMulWith (add : Int → Int → Except Fault Int) (a b : Int) : Except Fault Int :=
  binMulLoopWith add b.toNat 0 a b

/-- The loop of `power` over `binMulWith add`. -/
def powerLoopWith (add : Int → Int → Except Fault Int) (fuel : Nat) (ans a b : Int) :
    Except Fault Int :=
  if b = 0 then .ok ans
  else
    match fuel with
    | 0 => .error .diverges
    | fuel + 1 =>
      match (if Int.land b 1 ≠ 0 then binMulWith add ans a else .ok ans) with
      | .error e => .error e
      | .ok ans1 =>
        match binMulWith add a a with
        | .error e => .error e
        | .ok a1 => powerLoopWith add fuel ans1 a1 (b >>> 1)

/-- `power` over `binMulWith add`. -/
def powerWith (add : Int → Int → Except Fault Int) (a b : Int) : Except Fault Int :=
  powerLoopWith add b.toNat 1 a b

/-! ## The input format -/

/-- A test case: the sequences `A` and `B`. -/
abbrev TestCase := List Int × List Int

/-- The tokens of one test case: `n`, the `n` values of `A`, the `n` values of `B`. -/
def encodeCase (tc : TestCase) : List Int :=
  (tc.1.length : Int) :: (tc.1 ++ tc.2)

/-- The tokens of a whole input: the number `T` of test cases, then each test case. -/
def encode (tcs : List TestCase) : List Int :=
  (tcs.length : Int) :: tcs.flatMap encodeCase

/-! ## Observations of the run of `solve` used to state its properties -/

/-- The map `m` after the insertions of positions `0 .. k-1`. -/
def mapAt (a b : List Int) : Nat → Except Fault ValueMap
  | 0 => .ok []
  | k + 1 =>
    match mapAt a b k with
    | .error f => .error f
    | .ok m => insertBoth a b m (k : Int)

/-- The entry `m.rbegin()` that is scanned at position `i` (after the two
insertions of position `i`). -/
def scannedAt (a b : List Int) (i : Nat) : Except Fault (Int × List Entry) :=
  match mapAt a b (i + 1) with
  | .error f => .error f
  | .ok m => rbegin m

/-- The values of `mx`, `ix`, `ar` when the inner loop at position `i` ends. -/
def selAt (a b : List Int) (i : Nat) : Except Fault Sel :=
  match scannedAt a b i with
  | .error f => .error f
  | .ok it => scan a b (i : Int) it.2 Sel.init

/-- The value that lines 175-182 leave in `ans[i]`, as a function of the
selection made at position `i` (`ans[i]` keeps its initial 0 when `ar` is
neither 1 nor 2). -/
def valueAt (a b : List Int) (i : Nat) : Except Fault Int :=
  match selAt a b i with
  | .error f => .error f
  | .ok sel =>
    if sel.ar = 1 then combine b a (i : Int) sel.ix
    else if sel.ar = 2 then combine a b (i : Int) sel.ix
    else .ok 0

/-- The vector stored under `key` (empty when the key is absent). -/
def lookup : ValueMap → Int → List Entry
  | [], _ => []
  | (k1, v) :: rest, k => if k = k1 then v else lookup rest k

/-- The keys of the map, in iteration order. -/
def keys (m : ValueMap) : List Int := m.map Prod.fst

/-- The pairs `(j,1)` with `a[j] = key` and `(j,2)` with `b[j] = key` for
`j < k`, by increasing `j`, with `(j,1)` before `(j,2)`. -/
def entriesFor (a b : List Int) (k : Nat) (key : Int) : List Entry :=
  (List.range k).flatMap fun j =>
    (if a[j]? = some key then [((j : Int), (1 : Int))] else []) ++
    (if b[j]? = some key then [((j : Int), (2 : Int))] else [])

/-- The comparison value of an entry at position `i`: `b[|i-j|]` for `(j,1)`
and `a[|i-j|]` for `(j,2)`. -/
def compVal (a b : List Int) (i : Int) (e : Entry) : Except Fault Int :=
  if e.2 = 1 then index b (((i - e.1).natAbs : Nat) : Int)
  else index a (((i - e.1).natAbs : Nat) : Int)

/-- What the map holds after the insertions of positions `0 .. k-1`: keys in
strictly increasing order, exactly the values seen so far, each with its
entries in insertion order. -/
def MapInv (a b : List Int) (k : Nat) (m : ValueMap) : Prop :=
  (keys m).Pairwise (· < ·) ∧
  (∀ key, key ∈ keys m ↔ ∃ j, j < k ∧ (a[j]? = some key ∨ b[j]? = some key)) ∧
  (∀ key, lookup m key = entriesFor a b k key)

/-- The total number of (position, tag) pairs stored in the map. -/
def pairCount (m : ValueMap) : Nat := (m.map fun p => p.2.length).sum

/-! ## Bit-level facts on non-negative machine integers -/

theorem land_one_natCast (n : Nat) : Int.land (n : Int) 1 = ((n % 2 : Nat) : Int) := by
  show ((n &&& 1 : Nat) : Int) = _
  rw [Nat.and_one_is_mod]

theorem shiftRight_one_natCast (n : Nat) : ((n : Int) >>> 1) = ((n / 2 : Nat) : Int) := by
  show ((n >>> 1 : Nat) : Int) = _
  rw [Nat.shiftRight_eq_div_pow, pow_one]

theorem tmod_M_of_nonneg {x : Int} (hx : 0 ≤ x) : x.tmod M = x % M :=
  Int.tmod_eq_emod hx (by decide)

theorem emod_M_nonneg (x : Int) : 0 ≤ x % M :=
  Int.emod_nonneg x (by decide)

theorem emod_M_lt (x : Int) : x % M < M :=
  Int.emod_lt_of_pos x (by decide)

/-! ## `binMul` computes the product modulo `M` -/

theorem binMulLoop_nat (fuel : Nat) :
    ∀ (n : Nat) (ans a : Int), n ≤ fuel → 0 ≤ ans → ans < M → 0 ≤ a →
      binMulLoop fuel ans a (n : Int) = .ok ((ans + a * n) % M) := by
  induction fuel with
  | zero =>
    intro n ans a hn h0 h1 _
    have : n = 0 := by omega
    subst this
    simp [binMulLoop, Int.emod_eq_of_lt h0 h1]
  | succ fuel ih =>
    intro n ans a hn h0 h1 ha
    by_cases hz : n = 0
    · subst hz
      simp [binMulLoop, Int.emod_eq_of_lt h0 h1]
    · have hne : (n : Int) ≠ 0 := by exact_mod_cast hz
      rw [binMulLoop, if_neg hne]
      simp only [land_one_natCast, shiftRight_one_natCast]
      have haa : 0 ≤ (a + a) % M := emod_M_nonneg _
      rw [tmod_M_of_nonneg (by omega : 0 ≤ a + a)]
      have hdiv : n / 2 ≤ fuel := by omega
      have hdecomp : (n : Int) = 2 * ((n / 2 : Nat) : Int) + ((n % 2 : Nat) : Int) := by
        have := Nat.div_add_mod n 2
        exact_mod_cast this.symm
      rcases Nat.mod_two_eq_zero_or_one n with h2 | h2
      · rw [h2] at hdecomp ⊢
        simp only [Nat.cast_zero, ne_eq, not_true_eq_false, if_false]
        rw [ih (n / 2) ans _ hdiv h0 h1 haa]
        congr 1
        rw [hdecomp, Int.add_emod, Int.mul_emod, Int.emod_emod_of_dvd _ (dvd_refl M),
          ← Int.mul_emod, ← Int.add_emod]
        congr 1
        ring
      · rw [h2] at hdecomp ⊢
        simp only [Nat.cast_one, ne_eq, one_ne_zero, not_false_eq_true, if_true]
        rw [tmod_M_of_nonneg (by omega : 0 ≤ ans + a)]
        rw [ih (n / 2) _ _ hdiv (emod_M_nonneg _) (emod_M_lt _) haa]
        congr 1
        rw [hdecomp, Int.add_emod, Int.mul_emod ((a + a) % M),
          Int.emod_emod_of_dvd _ (dvd_refl M), Int.emod_emod_of_dvd _ (dvd_refl M),
          ← Int.mul_emod, ← Int.add_emod]
        congr 1
        ring

theorem binMul_eq {a b : Int} (ha : 0 ≤ a) (hb : 0 ≤ b) :
    binMul a b = .ok ((a * b) % M) := by
  obtain ⟨n, rfl⟩ := Int.eq_ofNat_of_zero_le hb
  have := binMulLoop_nat n n 0 a (le_refl _) (le_refl _) (by decide) ha
  simpa [binMul] using this

/-! ## `power` computes the power modulo `M` -/

theorem powerLoop_nat (fuel : Nat) :
    ∀ (n : Nat) (ans a : Int), n ≤ fuel → 0 ≤ ans → ans < M → 0 ≤ a →
      powerLoop fuel ans a (n : Int) = .ok ((ans * a ^ n) % M) := by
  induction fuel with
  | zero =>
    intro n ans a hn h0 h1 _
    have : n = 0 := by omega
    subst this
    simp [powerLoop, Int.emod_eq_of_lt h0 h1]
  | succ fuel ih =>
    intro n ans a hn h0 h1 ha
    by_cases hz : n = 0
    · subst hz
      simp [powerLoop, Int.emod_eq_of_lt h0 h1]
    · have hne : (n : Int) ≠ 0 := by exact_mod_cast hz
      rw [powerLoop, if_neg hne]
      simp only [land_one_natCast, shiftRight_one_natCast]
      rw [binMul_eq ha ha]
      have hdiv : n / 2 ≤ fuel := by omega
      have hdecomp : n = 2 * (n / 2) + n % 2 := (Nat.div_add_mod n 2).symm
      have hsq : (a * a % M) ^ (n / 2) ≡ (a * a) ^ (n / 2) [ZMOD M] :=
        (Int.mod_modEq _ _).pow _
      rcases Nat.mod_two_eq_zero_or_one n with h2 | h2
      · rw [h2] at hdecomp ⊢
        simp only [Nat.cast_zero, ne_eq, not_true_eq_false, if_false]
        rw [ih (n / 2) ans _ hdiv h0 h1 (emod_M_nonneg _)]
        congr 1
        have h3 : ans * (a * a % M) ^ (n / 2) ≡ ans * (a * a) ^ (n / 2) [ZMOD M] :=
          Int.ModEq.mul_left _ hsq
        have h4 : ans * (a * a) ^ (n / 2) = ans * a ^ n := by
          conv_rhs => rw [hdecomp]
          rw [add_zero, pow_mul, pow_two]
        rw [← h4]
        exact h3
      · rw [h2] at hdecomp ⊢
        simp only [Nat.cast_one, ne_eq, one_ne_zero, not_false_eq_true, if_true]
        rw [binMul_eq h0 ha]
        show powerLoop fuel (ans * a % M) (a * a % M) ((n / 2 : Nat) : Int) = _
        rw [ih (n / 2) _ _ hdiv (emod_M_nonneg _) (emod_M_lt _) (emod_M_nonneg _)]
        congr 1
        have h3 : ans * a % M * (a * a % M) ^ (n / 2) ≡ ans * a * (a * a) ^ (n / 2) [ZMOD M] :=
          Int.ModEq.mul (Int.mod_modEq _ _) hsq
        have h4 : ans * a * (a * a) ^ (n / 2) = ans * a ^ n := by
          conv_rhs => rw [hdecomp]
          rw [pow_add, pow_mul, pow_two, pow_one]
          ring
        rw [← h4]
        exact h3

theorem power_eq {a b : Int} (ha : 0 ≤ a) (hb : 0 ≤ b) :
    power a b = .ok ((a ^ b.toNat) % M) := by
  obtain ⟨n, rfl⟩ := Int.eq_ofNat_of_zero_le hb
  have := powerLoop_nat n n 1 a (le_refl _) (by decide) (by decide) ha
  simpa [power] using this

/-! ## Adequacy of the fuel: a negative multiplier or exponent never leaves the loop -/

theorem shiftRight_one_neg {b : Int} (hb : b < 0) : b >>> 1 < 0 := by
  cases b with
  | ofNat n =>
    have : (0 : Int) ≤ Int.ofNat n := Int.ofNat_nonneg n
    omega
  | negSucc n =>
    show Int.negSucc (n >>> 1) < 0
    exact Int.negSucc_lt_zero _

theorem binMulLoop_error (fuel : Nat) :
    ∀ (ans a b : Int) (f : Fault), binMulLoop fuel ans a b = .error f → f = .diverges := by
  induction fuel with
  | zero =>
    intro ans a b f h
    unfold binMulLoop at h
    by_cases hb : b = 0
    · rw [if_pos hb] at h
      cases h
    · rw [if_neg hb] at h
      injection h with h
      exact h.symm
  | succ fuel ih =>
    intro ans a b f h
    unfold binMulLoop at h
    by_cases hb : b = 0
    · rw [if_pos hb] at h
      cases h
    · rw [if_neg hb] at h
      exact ih _ _ _ f h

theorem binMulLoop_neg (fuel : Nat) :
    ∀ (ans a b : Int), b < 0 → binMulLoop fuel ans a b = .error .diverges := by
  induction fuel with
  | zero =>
    intro ans a b hb
    have hne : b ≠ 0 := by omega
    unfold binMulLoop
    rw [if_neg hne]
  | succ fuel ih =>
    intro ans a b hb
    have hne : b ≠ 0 := by omega
    unfold binMulLoop
    rw [if_neg hne]
    exact ih _ _ _ (shiftRight_one_neg hb)

theorem powerLoop_neg (fuel : Nat) :
    ∀ (ans a b : Int), b < 0 → powerLoop fuel ans a b = .error .diverges := by
  induction fuel with
  | zero =>
    intro ans a b hb
    have hne : b ≠ 0 := by omega
    unfold powerLoop
    rw [if_neg hne]
  | succ fuel ih =>
    intro ans a b hb
    have hne : b ≠ 0 := by omega
    unfold powerLoop
    rw [if_neg hne]
    dsimp only
    have hmul : ∀ (x y : Int) (f : Fault), binMul x y = .error f → f = .diverges :=
      fun x y f h => binMulLoop_error _ _ _ _ f h
    cases h1 : (if Int.land b 1 ≠ 0 then binMul ans a else Except.ok ans) with
    | error f =>
      have hf : f = .diverges := by
        by_cases hbit : Int.land b 1 ≠ 0
        · rw [if_pos hbit] at h1
          exact hmul _ _ f h1
        · rw [if_neg hbit] at h1
          cases h1
      rw [hf]
    | ok ans1 =>
      dsimp only
      cases h2 : binMul a a with
      | error f => rw [hmul _ _ f h2]
      | ok a1 => exact ih _ _ _ (shiftRight_one_neg hb)

/-! ## The ordered map -/

theorem mem_keys_push (m : ValueMap) (k : Int) (x : Entry) (k1 : Int) :
    k1 ∈ keys (push m k x) ↔ k1 = k ∨ k1 ∈ keys m := by
  induction m with
  | nil => simp [push, keys]
  | cons p rest ih =>
    obtain ⟨k2, v⟩ := p
    unfold push
    split_ifs with h1 h2
    · simp [keys]
    · subst h2
      simp [keys]
    · have ih1 : k1 ∈ List.map Prod.fst (push rest k x) ↔ k1 = k ∨ k1 ∈ List.map Prod.fst rest := ih
      simp only [keys, List.map_cons, List.mem_cons, ih1]
      tauto

theorem push_sorted (m : ValueMap) (k : Int) (x : Entry)
    (hs : (keys m).Pairwise (· < ·)) : (keys (push m k x)).Pairwise (· < ·) := by
  induction m with
  | nil => simp [push, keys]
  | cons p rest ih =>
    obtain ⟨k2, v⟩ := p
    have hs1 : (∀ y ∈ keys rest, k2 < y) ∧ (keys rest).Pairwise (· < ·) := by
      simpa [keys] using hs
    unfold push
    split_ifs with h1 h2
    · have : keys ((k, [x]) :: (k2, v) :: rest) = k :: k2 :: keys rest := rfl
      rw [this]
      refine List.pairwise_cons.2 ⟨?_, ?_⟩
      · intro y hy
        rcases List.mem_cons.1 hy with rfl | hy
        · exact h1
        · exact lt_trans h1 (hs1.1 y hy)
      · exact List.pairwise_cons.2 hs1
    · have : keys ((k2, v ++ [x]) :: rest) = k2 :: keys rest := rfl
      rw [this]
      exact List.pairwise_cons.2 hs1
    · have : keys ((k2, v) :: push rest k x) = k2 :: keys (push rest k x) := rfl
      rw [this]
      refine List.pairwise_cons.2 ⟨?_, ih hs1.2⟩
      intro y hy
      rcases (mem_keys_push rest k x y).1 hy with rfl | hy
      · omega
      · exact hs1.1 y hy

theorem lookup_of_not_mem (m : ValueMap) (k : Int) (h : k ∉ keys m) : lookup m k = [] := by
  induction m with
  | nil => rfl
  | cons p rest ih =>
    obtain ⟨k2, v⟩ := p
    have h1 : k ≠ k2 ∧ k ∉ keys rest := by simpa [keys] using h
    simp [lookup, h1.1, ih h1.2]

theorem lookup_push (m : ValueMap) (k : Int) (x : Entry) (k1 : Int)
    (hs : (keys m).Pairwise (· < ·)) :
    lookup (push m k x) k1 = if k1 = k then lookup m k ++ [x] else lookup m k1 := by
  induction m with
  | nil => simp [push, lookup]
  | cons p rest ih =>
    obtain ⟨k2, v⟩ := p
    have hs1 : (∀ y ∈ keys rest, k2 < y) ∧ (keys rest).Pairwise (· < ·) := by
      simpa [keys] using hs
    by_cases h1 : k < k2
    · have hp : push ((k2, v) :: rest) k x = (k, [x]) :: (k2, v) :: rest := by
        simp [push, h1]
      have hnot : k ∉ keys rest := fun hm => by
        have := hs1.1 k hm
        omega
      have hne : k ≠ k2 := by omega
      rw [hp]
      by_cases h3 : k1 = k
      · subst h3
        simp [lookup, hne, lookup_of_not_mem rest k1 hnot]
      · simp [lookup, h3]
    · by_cases h2 : k = k2
      · subst h2
        have hp : push ((k, v) :: rest) k x = (k, v ++ [x]) :: rest := by
          simp [push]
        rw [hp]
        by_cases h3 : k1 = k
        · subst h3
          simp [lookup]
        · simp [lookup, h3]
      · have hp : push ((k2, v) :: rest) k x = (k2, v) :: push rest k x := by
          simp [push, h1, h2]
        rw [hp]
        by_cases h3 : k1 = k
        · subst h3
          simp [lookup, h2, ih hs1.2]
        · by_cases h4 : k1 = k2
          · subst h4
            simp [lookup, h3]
          · simp [lookup, h4, ih hs1.2, h3]

theorem getLast_sorted (m : ValueMap) (hs : (keys m).Pairwise (· < ·))
    (K : Int) (v : List Entry) (hl : m.getLast? = some (K, v)) :
    K ∈ keys m ∧ (∀ k ∈ keys m, k ≤ K) ∧ lookup m K = v := by
  induction m with
  | nil => simp at hl
  | cons p rest ih =>
    obtain ⟨k2, w⟩ := p
    have hs1 : (∀ y ∈ keys rest, k2 < y) ∧ (keys rest).Pairwise (· < ·) := by
      simpa [keys] using hs
    cases rest with
    | nil =>
      simp at hl
      obtain ⟨rfl, rfl⟩ := hl
      simp [keys, lookup]
    | cons q rest2 =>
      rw [List.getLast?_cons_cons] at hl
      obtain ⟨h1, h2, h3⟩ := ih hs1.2 hl
      have hlt : k2 < K := hs1.1 K h1
      refine ⟨?_, ?_, ?_⟩
      · exact List.mem_cons_of_mem _ h1
      · intro k hk
        have hk1 : k = k2 ∨ k ∈ keys (q :: rest2) := by simpa [keys] using hk
        rcases hk1 with rfl | hk1
        · omega
        · exact h2 k hk1
      · have hne : K ≠ k2 := by omega
        simp only [lookup, hne, if_false]
        exact h3

/-! ## Checked vector accesses -/

theorem index_natCast (v : List Int) (k : Nat) (x : Int) (h : v[k]? = some x) :
    index v (k : Int) = .ok x := by
  have h0 : ¬ ((k : Int) < 0) := by omega
  simp [index, h0, h]

theorem index_ok_iff (v : List Int) (k x : Int) :
    index v k = .ok x ↔ 0 ≤ k ∧ v[k.toNat]? = some x := by
  unfold index
  by_cases h0 : k < 0
  · simp [h0]
  · have h1 : 0 ≤ k := by omega
    simp only [h0, if_false, h1, true_and]
    cases hv : v[k.toNat]? with
    | none => simp
    | some y => simp

theorem store_natCast (v : List Int) (k : Nat) (x : Int) (h : k < v.length) :
    store v (k : Int) x = .ok (v.set k x) := by
  have h0 : ¬ ((k : Int) < 0) := by omega
  simp [store, h0, h]

/-! ## The map during the run of `solve` -/

theorem entriesFor_succ (a b : List Int) (k : Nat) (key : Int) :
    entriesFor a b (k + 1) key =
      entriesFor a b k key ++
        ((if a[k]? = some key then [((k : Int), (1 : Int))] else []) ++
         (if b[k]? = some key then [((k : Int), (2 : Int))] else [])) := by
  simp [entriesFor, List.range_succ, List.flatMap_append]

theorem insertBoth_inv (a b : List Int) (k : Nat) (m : ValueMap)
    (hm : MapInv a b k m) (ha : k < a.length) (hb : k < b.length) :
    ∃ m2, insertBoth a b m (k : Int) = .ok m2 ∧ MapInv a b (k + 1) m2 := by
  obtain ⟨hs, hk, hl⟩ := hm
  have hak : a[k]? = some a[k] := List.getElem?_eq_getElem ha
  have hbk : b[k]? = some b[k] := List.getElem?_eq_getElem hb
  refine ⟨push (push m a[k] ((k : Int), 1)) b[k] ((k : Int), 2), ?_, ?_, ?_, ?_⟩
  · simp [insertBoth, index_natCast a k _ hak, index_natCast b k _ hbk]
  · exact push_sorted _ _ _ (push_sorted _ _ _ hs)
  · intro key
    rw [mem_keys_push, mem_keys_push, hk]
    constructor
    · rintro (rfl | rfl | ⟨j, hj, h⟩)
      · exact ⟨k, by omega, Or.inr hbk⟩
      · exact ⟨k, by omega, Or.inl hak⟩
      · exact ⟨j, by omega, h⟩
    · rintro ⟨j, hj, h⟩
      by_cases hjk : j = k
      · subst hjk
        rw [hak, hbk] at h
        rcases h with h | h
        · right; left
          exact (Option.some.inj h).symm
        · left
          exact (Option.some.inj h).symm
      · exact Or.inr (Or.inr ⟨j, by omega, h⟩)
  · intro key
    rw [lookup_push _ _ _ _ (push_sorted _ _ _ hs), lookup_push _ _ _ _ hs,
      lookup_push _ _ _ _ hs, entriesFor_succ, hak, hbk]
    by_cases h1 : key = b[k] <;> by_cases h2 : key = a[k]
    · subst h1
      simp [h2, hl]
    · subst h1
      have : ¬ a[k] = b[k] := fun h => h2 h.symm
      simp [h2, this, hl]
    · subst h2
      have : ¬ b[k] = a[k] := fun h => h1 h.symm
      have h3 : ¬ a[k] = b[k] := h1
      simp [h3, this, hl]
    · have h3 : ¬ a[k] = key := fun h => h2 h.symm
      have h4 : ¬ b[k] = key := fun h => h1 h.symm
      simp [h1, h2, h3, h4, hl]

theorem mapAt_inv (a b : List Int) (k : Nat) (ha : k ≤ a.length) (hb : k ≤ b.length) :
    ∃ m, mapAt a b k = .ok m ∧ MapInv a b k m := by
  induction k with
  | zero =>
    refine ⟨[], rfl, ?_, ?_, ?_⟩
    · simp [keys]
    · simp [keys]
    · intro key
      simp [lookup, entriesFor]
  | succ k ih =>
    obtain ⟨m, h1, h2⟩ := ih (by omega) (by omega)
    obtain ⟨m2, h3, h4⟩ := insertBoth_inv a b k m h2 (by omega) (by omega)
    exact ⟨m2, by simp [mapAt, h1, h3], h4⟩

theorem mem_entriesFor (a b : List Int) (k : Nat) (key : Int) (e : Entry) :
    e ∈ entriesFor a b k key ↔
      ∃ j, j < k ∧ ((e = ((j : Int), 1) ∧ a[j]? = some key) ∨
                    (e = ((j : Int), 2) ∧ b[j]? = some key)) := by
  unfold entriesFor
  rw [List.mem_flatMap]
  constructor
  · rintro ⟨j, hj, he⟩
    refine ⟨j, List.mem_range.1 hj, ?_⟩
    rcases List.mem_append.1 he with he | he
    · left
      by_cases h : a[j]? = some key
      · simpa [h] using he
      · simp [h] at he
    · right
      by_cases h : b[j]? = some key
      · simpa [h] using he
      · simp [h] at he
  · rintro ⟨j, hj, h⟩
    refine ⟨j, List.mem_range.2 hj, ?_⟩
    rcases h with ⟨rfl, h⟩ | ⟨rfl, h⟩
    · simp [h]
    · simp [h]

theorem scannedAt_spec (a b : List Int) (i : Nat) (ha : i < a.length) (hb : i < b.length) :
    ∃ K t, scannedAt a b i = .ok (K, t) ∧ t = entriesFor a b (i + 1) K ∧
      (∃ j, j ≤ i ∧ (a[j]? = some K ∨ b[j]? = some K)) ∧
      (∀ j x, j ≤ i → (a[j]? = some x ∨ b[j]? = some x) → x ≤ K) := by
  obtain ⟨m, hm, hs, hk, hl⟩ := mapAt_inv a b (i + 1) (by omega) (by omega)
  have hai : a[i]? = some a[i] := List.getElem?_eq_getElem ha
  have hmem : a[i] ∈ keys m := (hk _).2 ⟨i, by omega, Or.inl hai⟩
  cases hlast : m.getLast? with
  | none =>
    rw [List.getLast?_eq_none_iff] at hlast
    subst hlast
    simp [keys] at hmem
  | some p =>
    obtain ⟨K, t⟩ := p
    obtain ⟨h1, h2, h3⟩ := getLast_sorted m hs K t hlast
    refine ⟨K, t, ?_, ?_, ?_, ?_⟩
    · simp [scannedAt, hm, rbegin, hlast]
    · rw [← h3, hl]
    · obtain ⟨j, hj, h⟩ := (hk K).1 h1
      exact ⟨j, by omega, h⟩
    · intro j x hj h
      exact h2 x ((hk x).2 ⟨j, by omega, h⟩)

/-! ## The inner scan -/

theorem scanStep_eq (a b : List Int) (i : Int) (s : Sel) (e : Entry) (v : Int)
    (ht : e.2 = 1 ∨ e.2 = 2) (hv : compVal a b i e = .ok v) :
    scanStep a b i s e =
      .ok (if v > s.mx then ⟨v, (((i - e.1).natAbs : Nat) : Int), e.2⟩ else s) := by
  unfold compVal at hv
  unfold scanStep
  rcases ht with ht | ht
  · rw [ht] at hv ⊢
    simp only [if_true] at hv ⊢
    rw [hv]
    dsimp only
    split_ifs <;> rfl
  · rw [ht] at hv ⊢
    have h21 : ¬ ((2 : Int) = 1) := by decide
    simp only [h21, if_false, if_true] at hv ⊢
    rw [hv]
    dsimp only
    split_ifs <;> rfl

theorem scan_spec (a b : List Int) (i : Int) (t : List Entry)
    (ht : ∀ e ∈ t, (e.2 = 1 ∨ e.2 = 2) ∧ ∃ v, compVal a b i e = .ok v) (s : Sel) :
    ∃ s1, scan a b i t s = .ok s1 ∧
      ((s1 = s ∧ ∀ e ∈ t, ∀ v, compVal a b i e = .ok v → v ≤ s.mx) ∨
       (∃ pre e post v, t = pre ++ e :: post ∧ compVal a b i e = .ok v ∧
          s1 = ⟨v, (((i - e.1).natAbs : Nat) : Int), e.2⟩ ∧ s.mx < v ∧
          (∀ e1 ∈ pre, ∀ v1, compVal a b i e1 = .ok v1 → v1 < v) ∧
          (∀ e1 ∈ post, ∀ v1, compVal a b i e1 = .ok v1 → v1 ≤ v))) := by
  induction t generalizing s with
  | nil => exact ⟨s, rfl, Or.inl ⟨rfl, by simp⟩⟩
  | cons e t ih =>
    obtain ⟨hte, v, hv⟩ := ht e (List.mem_cons_self _ _)
    have ht1 : ∀ e1 ∈ t, (e1.2 = 1 ∨ e1.2 = 2) ∧ ∃ v, compVal a b i e1 = .ok v :=
      fun e1 h1 => ht e1 (List.mem_cons_of_mem _ h1)
    have hstep := scanStep_eq a b i s e v hte hv
    by_cases hgt : v > s.mx
    · rw [if_pos hgt] at hstep
      obtain ⟨s1, hs1, hcase⟩ := ih ht1 ⟨v, (((i - e.1).natAbs : Nat) : Int), e.2⟩
      refine ⟨s1, by rw [scan, hstep]; exact hs1, Or.inr ?_⟩
      rcases hcase with ⟨heq, hall⟩ | ⟨pre, e2, post, v2, hsplit, hv2, hs2, hlt, hpre, hpost⟩
      · exact ⟨[], e, t, v, rfl, hv, heq, hgt, by simp, hall⟩
      · refine ⟨e :: pre, e2, post, v2, by simp [hsplit], hv2, hs2, ?_, ?_, hpost⟩
        · exact lt_trans hgt hlt
        · intro e1 he1 v1 hv1
          rcases List.mem_cons.1 he1 with rfl | he1
          · rw [hv] at hv1
            cases hv1
            exact hlt
          · exact hpre e1 he1 v1 hv1
    · rw [if_neg hgt] at hstep
      obtain ⟨s1, hs1, hcase⟩ := ih ht1 s
      refine ⟨s1, by rw [scan, hstep]; exact hs1, ?_⟩
      rcases hcase with ⟨heq, hall⟩ | ⟨pre, e2, post, v2, hsplit, hv2, hs2, hlt, hpre, hpost⟩
      · left
        refine ⟨heq, ?_⟩
        intro e1 he1 v1 hv1
        rcases List.mem_cons.1 he1 with rfl | he1
        · rw [hv] at hv1
          cases hv1
          omega
        · exact hall e1 he1 v1 hv1
      · right
        refine ⟨e :: pre, e2, post, v2, by simp [hsplit], hv2, hs2, hlt, ?_, hpost⟩
        intro e1 he1 v1 hv1
        rcases List.mem_cons.1 he1 with rfl | he1
        · rw [hv] at hv1
          cases hv1
          omega
        · exact hpre e1 he1 v1 hv1

/-! ## Entries of the scanned list and the value stored at a position -/

theorem entry_facts (a b : List Int) (i : Nat) (K : Int) (e : Entry)
    (he : e ∈ entriesFor a b (i + 1) K) (ha : i < a.length) (hb : i < b.length)
    (hmax : ∀ j x, j ≤ i → (a[j]? = some x ∨ b[j]? = some x) → x ≤ K) :
    ∃ (j : Nat) (v : Int), j ≤ i ∧ e.1 = (j : Int) ∧ (e.2 = 1 ∨ e.2 = 2) ∧
      compVal a b (i : Int) e = .ok v ∧ v ≤ K ∧
      ((((i : Int) - e.1).natAbs : Nat) : Int) = ((i - j : Nat) : Int) ∧
      (e.2 = 1 → a[j]? = some K ∧ b[i - j]? = some v) ∧
      (e.2 = 2 → b[j]? = some K ∧ a[i - j]? = some v) := by
  obtain ⟨j, hj, h⟩ := (mem_entriesFor a b (i + 1) K e).1 he
  have hji : j ≤ i := by omega
  have habs : ((((i : Int) - (j : Int)).natAbs : Nat) : Int) = ((i - j : Nat) : Int) := by
    omega
  rcases h with ⟨rfl, h⟩ | ⟨rfl, h⟩
  · have hlt : i - j < b.length := by omega
    have hv : b[i - j]? = some b[i - j] := List.getElem?_eq_getElem hlt
    refine ⟨j, b[i - j], hji, rfl, Or.inl rfl, ?_, ?_, habs, fun _ => ⟨h, hv⟩, ?_⟩
    · show (if (1 : Int) = 1 then index b _ else index a _) = _
      rw [if_pos rfl, habs]
      exact index_natCast b (i - j) _ hv
    · exact hmax (i - j) _ (by omega) (Or.inr hv)
    · intro h21
      have h12 : (1 : Int) = 2 := h21
      exact absurd h12 (by decide)
  · have hlt : i - j < a.length := by omega
    have hv : a[i - j]? = some a[i - j] := List.getElem?_eq_getElem hlt
    refine ⟨j, a[i - j], hji, rfl, Or.inr rfl, ?_, ?_, habs, ?_, fun _ => ⟨h, hv⟩⟩
    · show (if (2 : Int) = 1 then index b _ else index a _) = _
      rw [if_neg (by decide), habs]
      exact index_natCast a (i - j) _ hv
    · exact hmax (i - j) _ (by omega) (Or.inl hv)
    · intro h21
      have h12 : (2 : Int) = 1 := h21
      exact absurd h12 (by decide)

theorem combine_eq (x y : List Int) (i j : Nat) (hj : j ≤ i) (v K : Int)
    (hx : x[i - j]? = some v) (hy : y[j]? = some K) (hv : 0 ≤ v) (hK : 0 ≤ K) :
    combine x y (i : Int) ((i - j : Nat) : Int) =
      .ok ((2 ^ v.toNat % M + 2 ^ K.toNat % M) % M) := by
  have habs : (((((i - j : Nat) : Int) - (i : Int)).natAbs : Nat) : Int) = (j : Int) := by
    omega
  have h2 : (0 : Int) ≤ 2 := by decide
  have hsum : (0 : Int) ≤ 2 ^ v.toNat % M + 2 ^ K.toNat % M :=
    add_nonneg (emod_M_nonneg _) (emod_M_nonneg _)
  unfold combine
  rw [index_natCast x (i - j) v hx]
  dsimp only
  rw [power_eq h2 hv]
  dsimp only
  rw [habs, index_natCast y j K hy]
  dsimp only
  rw [power_eq h2 hK]
  dsimp only
  rw [tmod_M_of_nonneg hsum]

theorem position_spec (a b : List Int) (i : Nat) (ha : i < a.length) (hb : i < b.length) :
    ∃ (m2 : ValueMap) (K : Int) (t : List Entry) (sel : Sel),
      mapAt a b (i + 1) = .ok m2 ∧ rbegin m2 = .ok (K, t) ∧
      scan a b (i : Int) t Sel.init = .ok sel ∧
      t = entriesFor a b (i + 1) K ∧
      (∃ j, j ≤ i ∧ (a[j]? = some K ∨ b[j]? = some K)) ∧
      (∀ j x, j ≤ i → (a[j]? = some x ∨ b[j]? = some x) → x ≤ K) ∧
      ((sel = Sel.init ∧ ∀ e ∈ t, ∀ v, compVal a b (i : Int) e = .ok v → v ≤ -1) ∨
       (∃ (pre : List Entry) (e : Entry) (post : List Entry) (j : Nat),
          t = pre ++ e :: post ∧ j ≤ i ∧ e.1 = (j : Int) ∧
          compVal a b (i : Int) e = .ok sel.mx ∧ sel.ix = ((i - j : Nat) : Int) ∧
          sel.ar = e.2 ∧ 0 ≤ sel.mx ∧ sel.mx ≤ K ∧
          (∀ e1 ∈ pre, ∀ v1, compVal a b (i : Int) e1 = .ok v1 → v1 < sel.mx) ∧
          (∀ e1 ∈ post, ∀ v1, compVal a b (i : Int) e1 = .ok v1 → v1 ≤ sel.mx) ∧
          ((e.2 = 1 ∧ a[j]? = some K ∧ b[i - j]? = some sel.mx ∧
              combine b a (i : Int) sel.ix =
                .ok ((2 ^ sel.mx.toNat % M + 2 ^ K.toNat % M) % M)) ∨
           (e.2 = 2 ∧ b[j]? = some K ∧ a[i - j]? = some sel.mx ∧
              combine a b (i : Int) sel.ix =
                .ok ((2 ^ sel.mx.toNat % M + 2 ^ K.toNat % M) % M))))) := by
  obtain ⟨K, t, hscanned, ht, hKmem, hKmax⟩ := scannedAt_spec a b i ha hb
  obtain ⟨m2, hm2, _⟩ := mapAt_inv a b (i + 1) (by omega) (by omega)
  have hr : rbegin m2 = .ok (K, t) := by
    simpa [scannedAt, hm2] using hscanned
  have hentries : ∀ e ∈ t, (e.2 = 1 ∨ e.2 = 2) ∧ ∃ v, compVal a b (i : Int) e = .ok v := by
    intro e he
    rw [ht] at he
    obtain ⟨j, v, _, _, htag, hv, _⟩ := entry_facts a b i K e he ha hb hKmax
    exact ⟨htag, v, hv⟩
  obtain ⟨sel, hsel, hcase⟩ := scan_spec a b (i : Int) t hentries Sel.init
  refine ⟨m2, K, t, sel, hm2, hr, hsel, ht, hKmem, hKmax, ?_⟩
  rcases hcase with ⟨heq, hall⟩ | ⟨pre, e, post, v, hsplit, hv, hs, hlt, hpre, hpost⟩
  · exact Or.inl ⟨heq, hall⟩
  · right
    have he : e ∈ entriesFor a b (i + 1) K := by
      rw [← ht, hsplit]
      simp
    obtain ⟨j, v1, hji, hj, _, hv1, hvK, habs, h1, h2⟩ := entry_facts a b i K e he ha hb hKmax
    rw [hv] at hv1
    cases hv1
    have hmx : sel.mx = v := by rw [hs]
    have hix : sel.ix = ((i - j : Nat) : Int) := by rw [hs]; exact habs
    have har : sel.ar = e.2 := by rw [hs]
    have hv0 : 0 ≤ v := by
      have : Sel.init.mx = -1 := rfl
      omega
    have hK0 : 0 ≤ K := le_trans hv0 hvK
    refine ⟨pre, e, post, j, hsplit, hji, hj, by rw [hmx]; exact hv, hix, har,
      by rw [hmx]; exact hv0, by rw [hmx]; exact hvK, by rw [hmx]; exact hpre,
      by rw [hmx]; exact hpost, ?_⟩
    have htag : e.2 = 1 ∨ e.2 = 2 := (hentries e (by rw [hsplit]; simp)).1
    rw [hmx, hix]
    rcases htag with htag | htag
    · obtain ⟨h3, h4⟩ := h1 htag
      exact Or.inl ⟨htag, h3, h4, combine_eq b a i j hji v K h4 h3 hv0 hK0⟩
    · obtain ⟨h3, h4⟩ := h2 htag
      exact Or.inr ⟨htag, h3, h4, combine_eq a b i j hji v K h4 h3 hv0 hK0⟩

/-! ## The outer loop -/

theorem selAt_eq (a b : List Int) (i : Nat) (m2 : ValueMap) (K : Int) (t : List Entry)
    (hm : mapAt a b (i + 1) = .ok m2) (hr : rbegin m2 = .ok (K, t)) :
    scannedAt a b i = .ok (K, t) ∧ selAt a b i = scan a b (i : Int) t Sel.init := by
  have h1 : scannedAt a b i = .ok (K, t) := by simp [scannedAt, hm, hr]
  exact ⟨h1, by simp [selAt, h1]⟩

theorem valueAt_ok (a b : List Int) (i : Nat) (ha : i < a.length) (hb : i < b.length) :
    ∃ v, valueAt a b i = .ok v := by
  obtain ⟨m2, K, t, sel, hm, hr, hsel, _, _, _, hcase⟩ := position_spec a b i ha hb
  have hs : selAt a b i = .ok sel := by rw [(selAt_eq a b i m2 K t hm hr).2, hsel]
  rcases hcase with ⟨heq, _⟩ | ⟨pre, e, post, j, _, _, _, _, _, har, _, _, _, _, h⟩
  · refine ⟨0, ?_⟩
    rw [valueAt, hs, heq]
    rfl
  · rcases h with ⟨htag, _, _, hc⟩ | ⟨htag, _, _, hc⟩
    · refine ⟨(2 ^ sel.mx.toNat % M + 2 ^ K.toNat % M) % M, ?_⟩
      rw [valueAt, hs]
      dsimp only
      rw [if_pos (har.trans htag)]
      exact hc
    · refine ⟨(2 ^ sel.mx.toNat % M + 2 ^ K.toNat % M) % M, ?_⟩
      have h1 : ¬ sel.ar = 1 := by rw [har, htag]; decide
      rw [valueAt, hs]
      dsimp only
      rw [if_neg h1, if_pos (har.trans htag)]
      exact hc

theorem solveStep_spec (a b : List Int) (i : Nat) (s : LoopState)
    (ha : i < a.length) (hb : i < b.length) (hm : mapAt a b i = .ok s.m)
    (hlen : i < s.ans.length) (hzero : s.ans[i]? = some 0) :
    ∃ m2 v ans1, solveStep a b s (i : Int) = .ok ⟨m2, ans1⟩ ∧ mapAt a b (i + 1) = .ok m2 ∧
      valueAt a b i = .ok v ∧ ans1 = s.ans.set i v := by
  obtain ⟨m2, K, t, sel, hm2, hr, hsel, _⟩ := position_spec a b i ha hb
  obtain ⟨v, hv⟩ := valueAt_ok a b i ha hb
  have hs : selAt a b i = .ok sel := by rw [(selAt_eq a b i m2 K t hm2 hr).2, hsel]
  have hins : insertBoth a b s.m (i : Int) = .ok m2 := by
    simpa [mapAt, hm] using hm2
  refine ⟨m2, v, s.ans.set i v, ?_, hm2, hv, rfl⟩
  rw [valueAt, hs] at hv
  dsimp only at hv
  unfold solveStep
  rw [hins]
  dsimp only
  rw [hr]
  dsimp only
  rw [hsel]
  dsimp only
  by_cases h1 : sel.ar = 1
  · rw [if_pos h1] at hv ⊢
    rw [hv]
    dsimp only
    rw [store_natCast _ _ _ hlen]
  · rw [if_neg h1] at hv ⊢
    by_cases h2 : sel.ar = 2
    · rw [if_pos h2] at hv ⊢
      rw [hv]
      dsimp only
      rw [store_natCast _ _ _ hlen]
    · rw [if_neg h2] at hv ⊢
      cases hv
      congr 2
      apply List.ext_getElem?
      intro k
      rw [List.getElem?_set]
      by_cases hk : i = k
      · subst hk
        simp [hlen, hzero]
      · simp [hk]

theorem solveLoop_append (a b : List Int) (l1 l2 : List Nat) (s : LoopState) :
    solveLoop a b (l1 ++ l2) s =
      match solveLoop a b l1 s with
      | .error f => .error f
      | .ok s1 => solveLoop a b l2 s1 := by
  induction l1 generalizing s with
  | nil => rfl
  | cons i rest ih =>
    simp only [List.cons_append, solveLoop]
    cases solveStep a b s (i : Int) with
    | error f => rfl
    | ok s1 => exact ih s1

theorem solveLoop_range (a b : List Int) (n : Nat) (ha : a.length = n) (hb : b.length = n)
    (k : Nat) (hk : k ≤ n) :
    ∃ s, solveLoop a b (List.range k) (LoopState.init n) = .ok s ∧
      mapAt a b k = .ok s.m ∧ s.ans.length = n ∧
      (∀ i, k ≤ i → i < n → s.ans[i]? = some 0) ∧
      (∀ i, i < k → ∃ v, valueAt a b i = .ok v ∧ s.ans[i]? = some v) := by
  induction k with
  | zero =>
    refine ⟨LoopState.init n, rfl, rfl, by simp [LoopState.init], ?_, ?_⟩
    · intro i _ hi
      simp [LoopState.init, List.getElem?_replicate, hi]
    · intro i hi
      omega
  | succ k ih =>
    obtain ⟨s, hloop, hm, hlen, hzero, hval⟩ := ih (by omega)
    obtain ⟨m2, v, ans1, hstep, hm2, hv, hans⟩ :=
      solveStep_spec a b k s (by omega) (by omega) hm (by omega) (hzero k (le_refl _) (by omega))
    refine ⟨⟨m2, ans1⟩, ?_, hm2, ?_, ?_, ?_⟩
    · rw [List.range_succ, solveLoop_append, hloop]
      simp [solveLoop, hstep]
    · simp [hans, hlen]
    · intro i hki hi
      have hne : ¬ k = i := by omega
      simp only [hans, List.getElem?_set, hne, if_false]
      exact hzero i (by omega) hi
    · intro i hi
      by_cases hik : i = k
      · subst hik
        refine ⟨v, hv, ?_⟩
        have : i < s.ans.length := by omega
        simp [hans, List.getElem?_set, this]
      · obtain ⟨w, hw1, hw2⟩ := hval i (by omega)
        have hne : ¬ k = i := fun h => hik h.symm
        refine ⟨w, hw1, ?_⟩
        simp only [hans, List.getElem?_set, hne, if_false]
        exact hw2

theorem solve_spec (a b : List Int) (n : Nat) (ha : a.length = n) (hb : b.length = n) :
    ∃ r, solve n a b = .ok r ∧ r.length = n ∧
      ∀ i, i < n → ∃ v, valueAt a b i = .ok v ∧ r[i]? = some v := by
  obtain ⟨s, hloop, _, hlen, _, hval⟩ := solveLoop_range a b n ha hb n (le_refl _)
  exact ⟨s.ans, by simp [solve, hloop], hlen, hval⟩

/-! ## Closed form of the stored value -/

theorem valueAt_closed (a b : List Int) (i : Nat) (ha : i < a.length) (hb : i < b.length) :
    ∃ K t sel, scannedAt a b i = .ok (K, t) ∧ selAt a b i = .ok sel ∧
      ((sel = Sel.init ∧ valueAt a b i = .ok 0) ∨
       ((sel.ar = 1 ∨ sel.ar = 2) ∧ 0 ≤ sel.mx ∧ sel.mx ≤ K ∧
          valueAt a b i = .ok ((2 ^ sel.mx.toNat % M + 2 ^ K.toNat % M) % M))) := by
  obtain ⟨m2, K, t, sel, hm, hr, hsel, _, _, _, hcase⟩ := position_spec a b i ha hb
  obtain ⟨hsc, hsa⟩ := selAt_eq a b i m2 K t hm hr
  have hs : selAt a b i = .ok sel := by rw [hsa, hsel]
  refine ⟨K, t, sel, hsc, hs, ?_⟩
  rcases hcase with ⟨heq, _⟩ | ⟨pre, e, post, j, _, _, _, _, _, har, h0, hK, _, _, h⟩
  · left
    refine ⟨heq, ?_⟩
    rw [valueAt, hs, heq]
    rfl
  · right
    rcases h with ⟨htag, _, _, hc⟩ | ⟨htag, _, _, hc⟩
    · refine ⟨Or.inl (har.trans htag), h0, hK, ?_⟩
      rw [valueAt, hs]
      dsimp only
      rw [if_pos (har.trans htag)]
      exact hc
    · refine ⟨Or.inr (har.trans htag), h0, hK, ?_⟩
      have h1 : ¬ sel.ar = 1 := by rw [har, htag]; decide
      rw [valueAt, hs]
      dsimp only
      rw [if_neg h1, if_pos (har.trans htag)]
      exact hc

theorem valueAt_bounds (a b : List Int) (i : Nat) (ha : i < a.length) (hb : i < b.length)
    (v : Int) (hv : valueAt a b i = .ok v) : 0 ≤ v ∧ v < M := by
  obtain ⟨K, t, sel, _, _, h⟩ := valueAt_closed a b i ha hb
  rcases h with ⟨_, h⟩ | ⟨_, _, _, h⟩
  · rw [hv] at h
    cases h
    exact ⟨le_refl _, by decide⟩
  · rw [hv] at h
    cases h
    exact ⟨emod_M_nonneg _, emod_M_lt _⟩

theorem getElem?_nonneg (v : List Int) (hv : ∀ x ∈ v, 0 ≤ x) (k : Nat) (x : Int)
    (h : v[k]? = some x) : 0 ≤ x := by
  obtain ⟨hk, rfl⟩ := List.getElem?_eq_some_iff.1 h
  exact hv _ (List.getElem_mem _)

/-- With non-negative values the scan always finds a candidate. -/
theorem sel_found (a b : List Int) (i : Nat) (ha : i < a.length) (hb : i < b.length)
    (hna : ∀ x ∈ a, 0 ≤ x) (hnb : ∀ x ∈ b, 0 ≤ x)
    (K : Int) (t : List Entry) (ht : t = entriesFor a b (i + 1) K)
    (hKmem : ∃ j, j ≤ i ∧ (a[j]? = some K ∨ b[j]? = some K))
    (hKmax : ∀ j x, j ≤ i → (a[j]? = some x ∨ b[j]? = some x) → x ≤ K) :
    ¬ (∀ e ∈ t, ∀ v, compVal a b (i : Int) e = .ok v → v ≤ -1) := by
  intro hall
  obtain ⟨j, hj, h⟩ := hKmem
  rcases h with h | h
  · have he : (((j : Int), (1 : Int)) : Entry) ∈ entriesFor a b (i + 1) K :=
      (mem_entriesFor a b (i + 1) K _).2 ⟨j, by omega, Or.inl ⟨rfl, h⟩⟩
    obtain ⟨j1, v, _, _, _, hv, _, _, h1, _⟩ := entry_facts a b i K _ he ha hb hKmax
    have hle := hall _ (by rw [ht]; exact he) v hv
    have h0 := getElem?_nonneg b hnb _ v (h1 rfl).2
    omega
  · have he : (((j : Int), (2 : Int)) : Entry) ∈ entriesFor a b (i + 1) K :=
      (mem_entriesFor a b (i + 1) K _).2 ⟨j, by omega, Or.inr ⟨rfl, h⟩⟩
    obtain ⟨j1, v, _, _, _, hv, _, _, _, h2⟩ := entry_facts a b i K _ he ha hb hKmax
    have hle := hall _ (by rw [ht]; exact he) v hv
    have h0 := getElem?_nonneg a hna _ v (h2 rfl).2
    omega

/-! ## The result formula (C1) -/

/-- C1: for sequences `a`, `b` of non-negative integers of length `n` and a position
`i < n`, `solve` returns a result `r`, the scan at position `i` ends with a
selection `sel` whose tag `ar` is 1 or 2, and: if `ar = 1` then
`r[i] = (2^b[ix] mod M + 2^a[|ix-i|] mod M) mod M`; if `ar = 2` then
`r[i] = (2^a[ix] mod M + 2^b[|ix-i|] mod M) mod M`, with exact powers of two. -/
theorem C1_result_formula (a b : List Int) (n : Nat) (_hn : 1 ≤ n)
    (ha : a.length = n) (hb : b.length = n)
    (hna : ∀ x ∈ a, 0 ≤ x) (hnb : ∀ x ∈ b, 0 ≤ x) (i : Nat) (hi : i < n) :
    ∃ r sel, solve n a b = .ok r ∧ selAt a b i = .ok sel ∧ (sel.ar = 1 ∨ sel.ar = 2) ∧
      (sel.ar = 1 → ∃ x y, index b sel.ix = .ok x ∧
          index a (((sel.ix - (i : Int)).natAbs : Nat) : Int) = .ok y ∧
          r[i]? = some ((2 ^ x.toNat % M + 2 ^ y.toNat % M) % M)) ∧
      (sel.ar = 2 → ∃ x y, index a sel.ix = .ok x ∧
          index b (((sel.ix - (i : Int)).natAbs : Nat) : Int) = .ok y ∧
          r[i]? = some ((2 ^ x.toNat % M + 2 ^ y.toNat % M) % M)) := by
  have hia : i < a.length := by omega
  have hib : i < b.length := by omega
  obtain ⟨r, hr, _, hval⟩ := solve_spec a b n ha hb
  obtain ⟨v, hv, hri⟩ := hval i hi
  obtain ⟨m2, K, t, sel, hm, hrb, hsel, ht, hKmem, hKmax, hcase⟩ := position_spec a b i hia hib
  have hs : selAt a b i = .ok sel := by rw [(selAt_eq a b i m2 K t hm hrb).2, hsel]
  rcases hcase with ⟨_, hall⟩ | ⟨pre, e, post, j, _, hji, _, _, hix, har, _, _, _, _, h⟩
  · exact absurd hall (sel_found a b i hia hib hna hnb K t ht hKmem hKmax)
  · have habs : ((((sel.ix - (i : Int)).natAbs : Nat)) : Int) = (j : Int) := by
      rw [hix]
      omega
    rw [valueAt, hs] at hv
    dsimp only at hv
    rcases h with ⟨htag, h3, h4, hc⟩ | ⟨htag, h3, h4, hc⟩
    · have h1 : sel.ar = 1 := har.trans htag
      have h2 : ¬ sel.ar = 2 := by rw [h1]; decide
      rw [if_pos h1, hc] at hv
      cases hv
      refine ⟨r, sel, hr, hs, Or.inl h1, ?_, fun h => absurd h h2⟩
      intro _
      refine ⟨sel.mx, K, ?_, ?_, hri⟩
      · rw [hix]
        exact index_natCast b _ _ h4
      · rw [habs]
        exact index_natCast a _ _ h3
    · have h2 : sel.ar = 2 := har.trans htag
      have h1 : ¬ sel.ar = 1 := by rw [h2]; decide
      rw [if_neg h1, if_pos h2, hc] at hv
      cases hv
      refine ⟨r, sel, hr, hs, Or.inr h2, fun h => absurd h h1, ?_⟩
      intro _
      refine ⟨sel.mx, K, ?_, ?_, hri⟩
      · rw [hix]
        exact index_natCast a _ _ h4
      · rw [habs]
        exact index_natCast b _ _ h3

/-- Witness of C1 at `n = 2`, `a = [1,5]`, `b = [3,2]`, `i = 1`. -/
theorem C1_result_formula_witness :
    ∃ r sel, solve 2 [1, 5] [3, 2] = .ok r ∧ selAt [1, 5] [3, 2] 1 = .ok sel ∧
      (sel.ar = 1 ∨ sel.ar = 2) ∧
      (sel.ar = 1 → ∃ x y, index [3, 2] sel.ix = .ok x ∧
          index [1, 5] (((sel.ix - ((1 : Nat) : Int)).natAbs : Nat) : Int) = .ok y ∧
          r[1]? = some ((2 ^ x.toNat % M + 2 ^ y.toNat % M) % M)) ∧
      (sel.ar = 2 → ∃ x y, index [1, 5] sel.ix = .ok x ∧
          index [3, 2] (((sel.ix - ((1 : Nat) : Int)).natAbs : Nat) : Int) = .ok y ∧
          r[1]? = some ((2 ^ x.toNat % M + 2 ^ y.toNat % M) % M)) :=
  C1_result_formula [1, 5] [3, 2] 2 (by decide) rfl rfl (by decide) (by decide) 1 (by decide)

/-! ## The scenario `n = 2`, `a = [1,5]`, `b = [3,2]` (C2) -/

/-- C2, as stated, fails: on `n = 2`, `a = [1,5]`, `b = [3,2]` the result of `solve`
is not `[10, 6]`, and the selection at `i = 1` does not have `ix = 1`. -/
theorem C2_counterexample :
    solve 2 [1, 5] [3, 2] ≠ .ok [10, 6] ∧
      selAt [1, 5] [3, 2] 1 ≠ .ok ⟨3, 1, 1⟩ := by
  decide

/-- C2, amended: on `n = 2`, `a = [1,5]`, `b = [3,2]`, `solve` produces `[10, 40]`
(printed line `10 40 `): at `i = 0` the scanned entry is key 3 with `[(0,2)]` and
`result[0] = 10`; at `i = 1` the scanned entry is key 5 with `[(1,1)]`, the
selection is `mx = 3`, `ix = |1-1| = 0`, `ar = 1`, and
`result[1] = (2^b[0] + 2^a[1]) mod M = 8 + 32 = 40`. -/
theorem C2_scenario :
    solve 2 [1, 5] [3, 2] = .ok [10, 40] ∧
      printLine [10, 40] = "10 40 \n" ∧
      scannedAt [1, 5] [3, 2] 0 = .ok (3, [(0, 2)]) ∧
      selAt [1, 5] [3, 2] 0 = .ok ⟨1, 0, 2⟩ ∧
      scannedAt [1, 5] [3, 2] 1 = .ok (5, [(1, 1)]) ∧
      selAt [1, 5] [3, 2] 1 = .ok ⟨3, 0, 1⟩ ∧
      combine [3, 2] [1, 5] 1 0 = .ok 40 ∧
      (2 ^ 3 + 2 ^ 5 : Int) % M = 40 := by
  decide

/-! ## The winner of the scan (C3) -/

/-- C3: for sequences of non-negative integers of equal length and a position `i`,
the scan over the scanned list `t` ends with `mx` equal to the largest comparison
value of the entries of `t`, and with `(ix, ar) = (|i-j|, tag)` for the first
entry `(j, tag)` of `t` attaining it: every entry before it has a strictly
smaller comparison value. For `a = [0]`, `b = [0]` the list is `[(0,1),(0,2)]`
and the selection is `mx = 0`, `ix = 0`, `ar = 1`. -/
theorem C3_first_maximum_wins (a b : List Int) (n : Nat)
    (ha : a.length = n) (hb : b.length = n)
    (hna : ∀ x ∈ a, 0 ≤ x) (hnb : ∀ x ∈ b, 0 ≤ x) (i : Nat) (hi : i < n) :
    (∃ K t sel pre e post, scannedAt a b i = .ok (K, t) ∧ selAt a b i = .ok sel ∧
      t = pre ++ e :: post ∧
      compVal a b (i : Int) e = .ok sel.mx ∧
      sel.ix = ((((i : Int) - e.1).natAbs : Nat) : Int) ∧ sel.ar = e.2 ∧
      (∀ e1 ∈ t, ∃ v1, compVal a b (i : Int) e1 = .ok v1 ∧ v1 ≤ sel.mx) ∧
      (∀ e1 ∈ pre, ∃ v1, compVal a b (i : Int) e1 = .ok v1 ∧ v1 < sel.mx)) ∧
    scannedAt [0] [0] 0 = .ok (0, [(0, 1), (0, 2)]) ∧
    selAt [0] [0] 0 = .ok ⟨0, 0, 1⟩ := by
  have hia : i < a.length := by omega
  have hib : i < b.length := by omega
  refine ⟨?_, by decide, by decide⟩
  obtain ⟨m2, K, t, sel, hm, hrb, hsel, ht, hKmem, hKmax, hcase⟩ := position_spec a b i hia hib
  obtain ⟨hsc, hsa⟩ := selAt_eq a b i m2 K t hm hrb
  have hs : selAt a b i = .ok sel := by rw [hsa, hsel]
  have hcomp : ∀ e1 ∈ t, ∃ v1, compVal a b (i : Int) e1 = .ok v1 := by
    intro e1 he1
    rw [ht] at he1
    obtain ⟨_, v1, _, _, _, hv1, _⟩ := entry_facts a b i K e1 he1 hia hib hKmax
    exact ⟨v1, hv1⟩
  rcases hcase with ⟨_, hall⟩ | ⟨pre, e, post, j, hsplit, hji, hj, hv, hix, har, _, _, hpre, hpost, _⟩
  · exact absurd hall (sel_found a b i hia hib hna hnb K t ht hKmem hKmax)
  · refine ⟨K, t, sel, pre, e, post, hsc, hs, hsplit, hv, ?_, har, ?_, ?_⟩
    · rw [hix, hj]
      omega
    · intro e1 he1
      obtain ⟨v1, hv1⟩ := hcomp e1 he1
      refine ⟨v1, hv1, ?_⟩
      rw [hsplit] at he1
      rcases List.mem_append.1 he1 with h | h
      · exact le_of_lt (hpre e1 h v1 hv1)
      · rcases List.mem_cons.1 h with rfl | h
        · rw [hv] at hv1
          cases hv1
          exact le_refl _
        · exact hpost e1 h v1 hv1
    · intro e1 he1
      obtain ⟨v1, hv1⟩ := hcomp e1 (by rw [hsplit]; exact List.mem_append_left _ he1)
      exact ⟨v1, hv1, hpre e1 he1 v1 hv1⟩

/-- Witness of C3 at `a = [1,5]`, `b = [3,2]`, `i = 1`. -/
theorem C3_first_maximum_wins_witness :
    (∃ K t sel pre e post, scannedAt [1, 5] [3, 2] 1 = .ok (K, t) ∧
      selAt [1, 5] [3, 2] 1 = .ok sel ∧
      t = pre ++ e :: post ∧
      compVal [1, 5] [3, 2] ((1 : Nat) : Int) e = .ok sel.mx ∧
      sel.ix = (((((1 : Nat) : Int) - e.1).natAbs : Nat) : Int) ∧ sel.ar = e.2 ∧
      (∀ e1 ∈ t, ∃ v1, compVal [1, 5] [3, 2] ((1 : Nat) : Int) e1 = .ok v1 ∧ v1 ≤ sel.mx) ∧
      (∀ e1 ∈ pre, ∃ v1, compVal [1, 5] [3, 2] ((1 : Nat) : Int) e1 = .ok v1 ∧ v1 < sel.mx)) ∧
    scannedAt [0] [0] 0 = .ok (0, [(0, 1), (0, 2)]) ∧
    selAt [0] [0] 0 = .ok ⟨0, 0, 1⟩ :=
  C3_first_maximum_wins [1, 5] [3, 2] 2 rfl rfl (by decide) (by decide) 1 (by decide)

/-! ## The scanned entry (C4) -/

/-- C4: for integer sequences `a`, `b` and a position `i` within both, the entry
scanned at position `i` has a key `K` that occurs among `a[0..i]`, `b[0..i]` and
bounds all of them (their maximum), and its list is exactly the pairs `(j,1)` with
`j ≤ i`, `a[j] = K` and `(j,2)` with `j ≤ i`, `b[j] = K`, by increasing `j`,
`(j,1)` before `(j,2)`. -/
theorem C4_scanned_entry_is_maximum (a b : List Int) (i : Nat)
    (ha : i < a.length) (hb : i < b.length) :
    ∃ K t, scannedAt a b i = .ok (K, t) ∧
      (∃ j, j ≤ i ∧ (a[j]? = some K ∨ b[j]? = some K)) ∧
      (∀ j x, j ≤ i → (a[j]? = some x ∨ b[j]? = some x) → x ≤ K) ∧
      t = (List.range (i + 1)).flatMap (fun j =>
        (if a[j]? = some K then [((j : Int), (1 : Int))] else []) ++
        (if b[j]? = some K then [((j : Int), (2 : Int))] else [])) := by
  obtain ⟨K, t, h1, h2, h3, h4⟩ := scannedAt_spec a b i ha hb
  exact ⟨K, t, h1, h3, h4, h2⟩

/-- Witness of C4 at `a = [5,1,5]`, `b = [5,2,0]`, `i = 2`. -/
theorem C4_scanned_entry_is_maximum_witness :
    ∃ K t, scannedAt [5, 1, 5] [5, 2, 0] 2 = .ok (K, t) ∧
      (∃ j, j ≤ 2 ∧ (([5, 1, 5] : List Int)[j]? = some K ∨ ([5, 2, 0] : List Int)[j]? = some K)) ∧
      (∀ j x, j ≤ 2 →
        (([5, 1, 5] : List Int)[j]? = some x ∨ ([5, 2, 0] : List Int)[j]? = some x) → x ≤ K) ∧
      t = (List.range (2 + 1)).flatMap (fun j =>
        (if ([5, 1, 5] : List Int)[j]? = some K then [((j : Int), (1 : Int))] else []) ++
        (if ([5, 2, 0] : List Int)[j]? = some K then [((j : Int), (2 : Int))] else [])) :=
  C4_scanned_entry_is_maximum [5, 1, 5] [5, 2, 0] 2 (by decide) (by decide)

/-! ## Range of the results (C5) -/

/-- C5: for every `n ≥ 0` and sequences `a`, `b` of non-negative integers of length
`n`, `solve` returns a result all of whose values lie in `[0, 998244353)`. -/
theorem C5_result_bounds (a b : List Int) (n : Nat)
    (ha : a.length = n) (hb : b.length = n)
    (_hna : ∀ x ∈ a, 0 ≤ x) (_hnb : ∀ x ∈ b, 0 ≤ x) :
    ∃ r, solve n a b = .ok r ∧ ∀ x ∈ r, 0 ≤ x ∧ x < 998244353 := by
  obtain ⟨r, hr, hlen, hval⟩ := solve_spec a b n ha hb
  refine ⟨r, hr, ?_⟩
  intro x hx
  obtain ⟨i, hi⟩ := List.mem_iff_getElem?.1 hx
  have hin : i < n := by
    obtain ⟨h, _⟩ := List.getElem?_eq_some_iff.1 hi
    omega
  obtain ⟨v, hv, hri⟩ := hval i hin
  rw [hi] at hri
  cases hri
  exact valueAt_bounds a b i (by omega) (by omega) x hv

/-- Witness of C5 at `n = 2`, `a = [1,5]`, `b = [3,2]`. -/
theorem C5_result_bounds_witness :
    ∃ r, solve 2 [1, 5] [3, 2] = .ok r ∧ ∀ x ∈ r, 0 ≤ x ∧ x < 998244353 :=
  C5_result_bounds [1, 5] [3, 2] 2 rfl rfl (by decide) (by decide)

/-! ## Binary exponentiation (C6) -/

/-- C6: for integers `a ≥ 0` and `b ≥ 0`, in exact integer arithmetic `power a b`
returns `a^b mod 998244353`, `power a 0` returns 1, and `power 2 b` returns
`2^b mod 998244353`. -/
theorem C6_power_exact (a b : Int) (ha : 0 ≤ a) (hb : 0 ≤ b) :
    power a b = .ok (a ^ b.toNat % 998244353) ∧
      power a 0 = .ok 1 ∧
      power 2 b = .ok (2 ^ b.toNat % 998244353) :=
  ⟨power_eq ha hb, rfl, power_eq (by decide) hb⟩

/-- Witness of C6 at `a = 3`, `b = 5`. -/
theorem C6_power_exact_witness :
    power 3 5 = .ok (3 ^ (5 : Int).toNat % 998244353) ∧
      power 3 0 = .ok 1 ∧
      power 2 5 = .ok (2 ^ (5 : Int).toNat % 998244353) :=
  C6_power_exact 3 5 (by decide) (by decide)

/-! ## Selection of a candidate (C8) -/

/-- C8, as stated, fails on negative values: for `a = [-1]`, `b = [-1]` the scanned
list at position 0 is the non-empty `[(0,1),(0,2)]`, yet the scan ends with
`ar = 0` (no candidate) and `result[0]` keeps its default 0. -/
theorem C8_counterexample :
    scannedAt [-1] [-1] 0 = .ok (-1, [(0, 1), (0, 2)]) ∧
      selAt [-1] [-1] 0 = .ok ⟨-1, -1, 0⟩ ∧
      solve 1 [-1] [-1] = .ok [0] := by
  decide

/-- C8, amended: for integer sequences `a`, `b` and a position `i` within both, the
scanned list is never empty; the scan ends with `ar` in `{0, 1, 2}`, and `ar = 0`
(no candidate) can only happen when every comparison value of the list is at
most -1; hence for sequences of non-negative integers a candidate is selected
(`ar = 1` or `ar = 2`) at every position. -/
theorem C8_candidate_selected (a b : List Int) (i : Nat)
    (ha : i < a.length) (hb : i < b.length) :
    ∃ K t sel, scannedAt a b i = .ok (K, t) ∧ t ≠ [] ∧ selAt a b i = .ok sel ∧
      (sel.ar = 0 ∨ sel.ar = 1 ∨ sel.ar = 2) ∧
      (sel.ar = 0 → ∀ e ∈ t, ∃ v, compVal a b (i : Int) e = .ok v ∧ v ≤ -1) ∧
      ((∀ x ∈ a, 0 ≤ x) → (∀ x ∈ b, 0 ≤ x) → (sel.ar = 1 ∨ sel.ar = 2)) := by
  obtain ⟨m2, K, t, sel, hm, hrb, hsel, ht, hKmem, hKmax, hcase⟩ := position_spec a b i ha hb
  obtain ⟨hsc, hsa⟩ := selAt_eq a b i m2 K t hm hrb
  have hs : selAt a b i = .ok sel := by rw [hsa, hsel]
  have hne : t ≠ [] := by
    obtain ⟨j, hj, h⟩ := hKmem
    intro hnil
    rcases h with h | h
    · have he : (((j : Int), (1 : Int)) : Entry) ∈ entriesFor a b (i + 1) K :=
        (mem_entriesFor a b (i + 1) K _).2 ⟨j, by omega, Or.inl ⟨rfl, h⟩⟩
      rw [← ht, hnil] at he
      simp at he
    · have he : (((j : Int), (2 : Int)) : Entry) ∈ entriesFor a b (i + 1) K :=
        (mem_entriesFor a b (i + 1) K _).2 ⟨j, by omega, Or.inr ⟨rfl, h⟩⟩
      rw [← ht, hnil] at he
      simp at he
  refine ⟨K, t, sel, hsc, hne, hs, ?_⟩
  rcases hcase with ⟨heq, hall⟩ | ⟨pre, e, post, j, hsplit, _, _, _, _, har, _, _, _, _, h⟩
  · refine ⟨Or.inl (by rw [heq]; rfl), ?_, ?_⟩
    · intro _ e he
      have he1 : e ∈ entriesFor a b (i + 1) K := by rw [← ht]; exact he
      obtain ⟨_, v, _, _, _, hv, _⟩ := entry_facts a b i K e he1 ha hb hKmax
      exact ⟨v, hv, hall e he v hv⟩
    · intro hna hnb
      exact absurd hall (sel_found a b i ha hb hna hnb K t ht hKmem hKmax)
  · have htag : sel.ar = 1 ∨ sel.ar = 2 := by
      rcases h with ⟨htag, _⟩ | ⟨htag, _⟩
      · exact Or.inl (har.trans htag)
      · exact Or.inr (har.trans htag)
    refine ⟨Or.inr htag, ?_, fun _ _ => htag⟩
    intro h0
    rcases htag with h1 | h1
    · rw [h1] at h0
      exact absurd h0 (by decide)
    · rw [h1] at h0
      exact absurd h0 (by decide)

/-- Witness of C8 (amended) at `a = [1,5]`, `b = [3,2]`, `i = 1`. -/
theorem C8_candidate_selected_witness :
    ∃ K t sel, scannedAt [1, 5] [3, 2] 1 = .ok (K, t) ∧ t ≠ [] ∧
      selAt [1, 5] [3, 2] 1 = .ok sel ∧
      (sel.ar = 0 ∨ sel.ar = 1 ∨ sel.ar = 2) ∧
      (sel.ar = 0 → ∀ e ∈ t, ∃ v, compVal [1, 5] [3, 2] ((1 : Nat) : Int) e = .ok v ∧ v ≤ -1) ∧
      ((∀ x ∈ ([1, 5] : List Int), 0 ≤ x) → (∀ x ∈ ([3, 2] : List Int), 0 ≤ x) →
        (sel.ar = 1 ∨ sel.ar = 2)) :=
  C8_candidate_selected [1, 5] [3, 2] 1 (by decide) (by decide)

/-! ## The first result (C9) -/

/-- C9: for `n ≥ 1` and sequences of non-negative integers of length `n`,
`result[0] = (2^b[0] + 2^a[0]) mod 998244353`, whichever of `a[0]`, `b[0]` is
larger. For `a = [0]`, `b = [0]` the result is `[2]`; for `a = [1,5]`,
`b = [3,2]`, `result[0] = 10`. -/
theorem C9_first_result (a b : List Int) (n : Nat) (hn : 1 ≤ n)
    (ha : a.length = n) (hb : b.length = n)
    (hna : ∀ x ∈ a, 0 ≤ x) (hnb : ∀ x ∈ b, 0 ≤ x) :
    (∃ r a0 b0, solve n a b = .ok r ∧ a[0]? = some a0 ∧ b[0]? = some b0 ∧
      r[0]? = some ((2 ^ b0.toNat + 2 ^ a0.toNat) % 998244353)) ∧
    solve 1 [0] [0] = .ok [2] ∧
    (∃ r, solve 2 [1, 5] [3, 2] = .ok r ∧ r[0]? = some 10) := by
  refine ⟨?_, by decide, ⟨[10, 40], by decide, by decide⟩⟩
  have hia : 0 < a.length := by omega
  have hib : 0 < b.length := by omega
  obtain ⟨r, hr, _, hval⟩ := solve_spec a b n ha hb
  obtain ⟨v, hv, hri⟩ := hval 0 (by omega)
  obtain ⟨m2, K, t, sel, hm, hrb, hsel, ht, hKmem, hKmax, hcase⟩ := position_spec a b 0 hia hib
  have hs : selAt a b 0 = .ok sel := by rw [(selAt_eq a b 0 m2 K t hm hrb).2, hsel]
  have ha0 : a[0]? = some a[0] := List.getElem?_eq_getElem hia
  have hb0 : b[0]? = some b[0] := List.getElem?_eq_getElem hib
  refine ⟨r, a[0], b[0], hr, ha0, hb0, ?_⟩
  have hM : (998244353 : Int) = M := rfl
  rw [hri, hM]
  congr 1
  rw [valueAt, hs] at hv
  dsimp only at hv
  rcases hcase with ⟨_, hall⟩ | ⟨pre, e, post, j, _, hji, _, _, hix, har, _, _, _, _, h⟩
  · exact absurd hall (sel_found a b 0 hia hib hna hnb K t ht hKmem hKmax)
  · have hj0 : j = 0 := by omega
    subst hj0
    rcases h with ⟨htag, h3, h4, hc⟩ | ⟨htag, h3, h4, hc⟩
    · have h1 : sel.ar = 1 := har.trans htag
      rw [if_pos h1, hc] at hv
      cases hv
      rw [ha0] at h3
      rw [hb0] at h4
      rw [← Option.some.inj h3, ← Option.some.inj h4, ← Int.add_emod]
    · have h2 : sel.ar = 2 := har.trans htag
      have h1 : ¬ sel.ar = 1 := by rw [h2]; decide
      rw [if_neg h1, if_pos h2, hc] at hv
      cases hv
      rw [hb0] at h3
      rw [ha0] at h4
      rw [← Option.some.inj h3, ← Option.some.inj h4, ← Int.add_emod, add_comm]

/-- Witness of C9 at `n = 1`, `a = [7]`, `b = [4]`. -/
theorem C9_first_result_witness :
    (∃ r a0 b0, solve 1 [7] [4] = .ok r ∧ ([7] : List Int)[0]? = some a0 ∧
      ([4] : List Int)[0]? = some b0 ∧
      r[0]? = some ((2 ^ b0.toNat + 2 ^ a0.toNat) % 998244353)) ∧
    solve 1 [0] [0] = .ok [2] ∧
    (∃ r, solve 2 [1, 5] [3, 2] = .ok r ∧ r[0]? = some 10) :=
  C9_first_result [7] [4] 1 (by decide) rfl rfl (by decide) (by decide)

/-! ## No overflow in the exponentiation (C7) -/

/-- An addition that agrees with the exact sum on operands in `[0, M)`. -/
theorem addWrap64_agrees (x y : Int) (hx0 : 0 ≤ x) (hx : x < M) (hy0 : 0 ≤ y) (hy : y < M) :
    addWrap64 x y = .ok (x + y) := by
  have hM : M = 998244353 := rfl
  unfold addWrap64 wrap64
  congr 1
  omega

theorem addChecked_agrees (x y : Int) (hx0 : 0 ≤ x) (hx : x < M) (hy0 : 0 ≤ y) (hy : y < M) :
    addChecked x y = .ok (x + y) := by
  have hM : M = 998244353 := rfl
  unfold addChecked
  rw [if_pos]
  omega

theorem tmod_M_range {x : Int} (hx : 0 ≤ x) : 0 ≤ x.tmod M ∧ x.tmod M < M := by
  rw [tmod_M_of_nonneg hx]
  exact ⟨emod_M_nonneg _, emod_M_lt _⟩

theorem addMod_eq (add : Int → Int → Except Fault Int)
    (hadd : ∀ x y, 0 ≤ x → x < M → 0 ≤ y → y < M → add x y = .ok (x + y))
    (x y : Int) (hx0 : 0 ≤ x) (hx : x < M) (hy0 : 0 ≤ y) (hy : y < M) :
    addMod add x y = .ok ((x + y).tmod M) := by
  rw [addMod, hadd x y hx0 hx hy0 hy]

theorem binMulLoopWith_eq (add : Int → Int → Except Fault Int)
    (hadd : ∀ x y, 0 ≤ x → x < M → 0 ≤ y → y < M → add x y = .ok (x + y)) (fuel : Nat) :
    ∀ ans a b : Int, 0 ≤ ans → ans < M → 0 ≤ a → a < M →
      binMulLoopWith add fuel ans a b = binMulLoop fuel ans a b ∧
      ∀ v, binMulLoop fuel ans a b = .ok v → 0 ≤ v ∧ v < M := by
  induction fuel with
  | zero =>
    intro ans a b h0 h1 _ _
    unfold binMulLoopWith binMulLoop
    by_cases hb : b = 0
    · repeat rw [if_pos hb]
      refine ⟨rfl, ?_⟩
      intro v hv
      cases hv
      exact ⟨h0, h1⟩
    · repeat rw [if_neg hb]
      refine ⟨rfl, ?_⟩
      intro v hv
      cases hv
  | succ fuel ih =>
    intro ans a b h0 h1 ha0 ha1
    unfold binMulLoopWith binMulLoop
    by_cases hb : b = 0
    · repeat rw [if_pos hb]
      refine ⟨rfl, ?_⟩
      intro v hv
      cases hv
      exact ⟨h0, h1⟩
    · repeat rw [if_neg hb]
      have haa := tmod_M_range (by omega : 0 ≤ a + a)
      dsimp only
      rw [addMod_eq add hadd a a ha0 ha1 ha0 ha1]
      by_cases hbit : Int.land b 1 ≠ 0
      · repeat rw [if_pos hbit]
        rw [addMod_eq add hadd ans a h0 h1 ha0 ha1]
        have hsum := tmod_M_range (by omega : 0 ≤ ans + a)
        exact ih _ _ _ hsum.1 hsum.2 haa.1 haa.2
      · repeat rw [if_neg hbit]
        exact ih _ _ _ h0 h1 haa.1 haa.2

theorem binMulWith_eq (add : Int → Int → Except Fault Int)
    (hadd : ∀ x y, 0 ≤ x → x < M → 0 ≤ y → y < M → add x y = .ok (x + y))
    (a b : Int) (ha0 : 0 ≤ a) (ha1 : a < M) :
    binMulWith add a b = binMul a b ∧ ∀ v, binMul a b = .ok v → 0 ≤ v ∧ v < M :=
  binMulLoopWith_eq add hadd b.toNat 0 a b (le_refl _) (by decide) ha0 ha1

theorem powerLoopWith_eq (add : Int → Int → Except Fault Int)
    (hadd : ∀ x y, 0 ≤ x → x < M → 0 ≤ y → y < M → add x y = .ok (x + y)) (fuel : Nat) :
    ∀ ans a b : Int, 0 ≤ ans → ans < M → 0 ≤ a → a < M →
      powerLoopWith add fuel ans a b = powerLoop fuel ans a b := by
  induction fuel with
  | zero =>
    intro ans a b _ _ _ _
    unfold powerLoopWith powerLoop
    rfl
  | succ fuel ih =>
    intro ans a b h0 h1 ha0 ha1
    unfold powerLoopWith powerLoop
    by_cases hb : b = 0
    · repeat rw [if_pos hb]
    · repeat rw [if_neg hb]
      obtain ⟨e1, r1⟩ := binMulWith_eq add hadd ans a h0 h1
      obtain ⟨e2, r2⟩ := binMulWith_eq add hadd a a ha0 ha1
      dsimp only
      rw [e1, e2]
      by_cases hbit : Int.land b 1 ≠ 0
      · repeat rw [if_pos hbit]
        cases hm : binMul ans a with
        | error f => rfl
        | ok ans1 =>
          have rans := r1 ans1 hm
          dsimp only
          cases hsq : binMul a a with
          | error f => rfl
          | ok a1 =>
            have ra1 := r2 a1 hsq
            exact ih _ _ _ rans.1 rans.2 ra1.1 ra1.2
      · repeat rw [if_neg hbit]
        dsimp only
        cases hsq : binMul a a with
        | error f => rfl
        | ok a1 =>
          have ra1 := r2 a1 hsq
          exact ih _ _ _ h0 h1 ra1.1 ra1.2

theorem powerWith_two (add : Int → Int → Except Fault Int)
    (hadd : ∀ x y, 0 ≤ x → x < M → 0 ≤ y → y < M → add x y = .ok (x + y)) (k : Int) :
    powerWith add 2 k = power 2 k :=
  powerLoopWith_eq add hadd k.toNat 1 2 k (by decide) (by decide) (by decide) (by decide)

/-- C7: for every exponent `k` with `0 ≤ k ≤ 2^63 - 1`, `power 2 k` run with the
addition that faults on any sum `ans+a` or `a+a` outside `[0, 2*998244353)`
returns `2^k mod 998244353` without fault (the accumulators `ans` and `a` being
remainders modulo `M`, the exponent only being shifted right); hence the run with
64-bit wrap-around addition returns the same value as the run with unbounded
integers. The final sum `power(2,x)+power(2,y)` of `solve` is below
`2*998244353` and is not changed by wrap-around. -/
theorem C7_no_overflow (k : Int) (h0 : 0 ≤ k) (_h1 : k ≤ 2 ^ 63 - 1) :
    powerWith addChecked 2 k = .ok (2 ^ k.toNat % 998244353) ∧
    powerWith addWrap64 2 k = powerWith addExact 2 k ∧
    powerWith addExact 2 k = power 2 k ∧
    (∀ x y p q : Int, 0 ≤ x → 0 ≤ y → power 2 x = .ok p → power 2 y = .ok q →
      0 ≤ p + q ∧ p + q < 2 * 998244353 ∧ wrap64 (p + q) = p + q) ∧
    binMulWith addChecked (2 * 998244353) 1 = .error .overflow ∧
    wrap64 (2 ^ 63) = -2 ^ 63 := by
  have hM : M = 998244353 := rfl
  have hexact : ∀ x y : Int, 0 ≤ x → x < M → 0 ≤ y → y < M → addExact x y = .ok (x + y) :=
    fun _ _ _ _ _ _ => rfl
  refine ⟨?_, ?_, powerWith_two addExact hexact k, ?_, by decide, by decide⟩
  · rw [powerWith_two addChecked addChecked_agrees k, power_eq (by decide) h0, hM]
  · rw [powerWith_two addWrap64 addWrap64_agrees k, powerWith_two addExact hexact k]
  · intro x y p q hx hy hp hq
    rw [power_eq (by decide) hx] at hp
    rw [power_eq (by decide) hy] at hq
    have hp0 := emod_M_nonneg (2 ^ x.toNat)
    have hp1 := emod_M_lt (2 ^ x.toNat)
    have hq0 := emod_M_nonneg (2 ^ y.toNat)
    have hq1 := emod_M_lt (2 ^ y.toNat)
    have hpe : (2 : Int) ^ x.toNat % M = p := by injection hp
    have hqe : (2 : Int) ^ y.toNat % M = q := by injection hq
    rw [hpe] at hp0 hp1
    rw [hqe] at hq0 hq1
    refine ⟨by omega, by omega, ?_⟩
    unfold wrap64
    omega

/-- Witness of C7 at `k = 10^18`. -/
theorem C7_no_overflow_witness :
    powerWith addChecked 2 1000000000000000000 =
      .ok (2 ^ (1000000000000000000 : Int).toNat % 998244353) ∧
    powerWith addWrap64 2 1000000000000000000 = powerWith addExact 2 1000000000000000000 ∧
    powerWith addExact 2 1000000000000000000 = power 2 1000000000000000000 ∧
    (∀ x y p q : Int, 0 ≤ x → 0 ≤ y → power 2 x = .ok p → power 2 y = .ok q →
      0 ≤ p + q ∧ p + q < 2 * 998244353 ∧ wrap64 (p + q) = p + q) ∧
    binMulWith addChecked (2 * 998244353) 1 = .error .overflow ∧
    wrap64 (2 ^ 63) = -2 ^ 63 :=
  C7_no_overflow 1000000000000000000 (by decide) (by decide)

/-! ## Test cases are processed independently (C10) -/

theorem foldl_append_string (l : List String) (init : String) :
    l.foldl (fun r s => r ++ s) init = init ++ l.foldl (fun r s => r ++ s) "" := by
  induction l generalizing init with
  | nil => simp
  | cons x l ih =>
    simp only [List.foldl_cons]
    rw [ih (init ++ x), ih ("" ++ x), String.empty_append, String.append_assoc]

theorem join_cons (x : String) (l : List String) :
    String.join (x :: l) = x ++ String.join l := by
  unfold String.join
  rw [List.foldl_cons, foldl_append_string, String.empty_append]

theorem join_append_singleton (l : List String) (x : String) :
    String.join (l ++ [x]) = String.join l ++ x := by
  unfold String.join
  rw [List.foldl_append]
  rfl

theorem input_append (a rest : List Int) : input a.length (a ++ rest) = .ok (a, rest) := by
  unfold input
  have h : ¬ (a ++ rest).length < a.length := by
    rw [List.length_append]
    omega
  rw [if_neg h, List.take_left, List.drop_left]

theorem solveCase_encodeCase (tc : TestCase) (rest : List Int)
    (h : tc.1.length = tc.2.length) :
    solveCase (encodeCase tc ++ rest) =
      match solve tc.1.length tc.1 tc.2 with
      | .error f => .error f
      | .ok r => .ok (printLine r, rest) := by
  have h0 : ¬ ((tc.1.length : Int) < 0) := by omega
  have h1 : encodeCase tc ++ rest = (tc.1.length : Int) :: (tc.1 ++ (tc.2 ++ rest)) := by
    simp [encodeCase]
  rw [h1]
  unfold solveCase
  dsimp only
  rw [if_neg h0, Int.toNat_ofNat, input_append]
  dsimp only
  rw [h, input_append]

theorem mainLoop_encode (tcs : List TestCase)
    (hwf : ∀ tc ∈ tcs, tc.1.length = tc.2.length) :
    ∃ rs : List (List Int),
      List.Forall₂ (fun tc r => solve tc.1.length tc.1 tc.2 = .ok r) tcs rs ∧
      ∀ (rest : List Int) (out : String),
        mainLoop tcs.length (tcs.flatMap encodeCase ++ rest) out =
          .ok (out ++ String.join (rs.map printLine)) := by
  induction tcs with
  | nil =>
    refine ⟨[], List.Forall₂.nil, ?_⟩
    intro rest out
    simp [mainLoop, String.join]
  | cons tc tcs ih =>
    obtain ⟨rs, hrs, hloop⟩ := ih (fun t ht => hwf t (List.mem_cons_of_mem _ ht))
    have hlen := hwf tc (List.mem_cons_self _ _)
    obtain ⟨r, hr, _⟩ := solve_spec tc.1 tc.2 tc.1.length rfl hlen.symm
    refine ⟨r :: rs, List.Forall₂.cons hr hrs, ?_⟩
    intro rest out
    have hcase := solveCase_encodeCase tc (tcs.flatMap encodeCase ++ rest) hlen
    rw [hr] at hcase
    rw [List.length_cons, List.flatMap_cons, List.append_assoc, mainLoop, hcase]
    dsimp only
    rw [hloop rest (out ++ printLine r), List.map_cons, join_cons, String.append_assoc]

theorem main_encode (tcs : List TestCase)
    (hwf : ∀ tc ∈ tcs, tc.1.length = tc.2.length) :
    ∃ rs : List (List Int),
      List.Forall₂ (fun tc r => solve tc.1.length tc.1 tc.2 = .ok r) tcs rs ∧
      main (encode tcs) = .ok (String.join (rs.map printLine)) := by
  obtain ⟨rs, hrs, hloop⟩ := mainLoop_encode tcs hwf
  refine ⟨rs, hrs, ?_⟩
  have h0 : ¬ ((tcs.length : Int) < 0) := by omega
  have h := hloop [] ""
  rw [List.append_nil, String.empty_append] at h
  unfold main encode
  dsimp only
  rw [if_neg h0, Int.toNat_ofNat, h]

/-- C10: for every list of well-formed test cases, the output of the program is the
concatenation of the lines of `solve` applied to each test case on its own; and
the line added for a test case `tc` after any list `pre` of earlier test cases
is `printLine r` for the result `r` of `solve` on `tc` alone. -/
theorem C10_cases_independent (pre : List TestCase) (tc : TestCase)
    (hpre : ∀ t ∈ pre, t.1.length = t.2.length) (htc : tc.1.length = tc.2.length) :
    (∃ rs : List (List Int),
      List.Forall₂ (fun t r => solve t.1.length t.1 t.2 = .ok r) pre rs ∧
      main (encode pre) = .ok (String.join (rs.map printLine))) ∧
    (∃ out r, main (encode pre) = .ok out ∧ solve tc.1.length tc.1 tc.2 = .ok r ∧
      main (encode (pre ++ [tc])) = .ok (out ++ printLine r)) := by
  obtain ⟨rs, hrs, hmain⟩ := main_encode pre hpre
  refine ⟨⟨rs, hrs, hmain⟩, ?_⟩
  have hwf : ∀ t ∈ pre ++ [tc], t.1.length = t.2.length := by
    intro t ht
    rcases List.mem_append.1 ht with h | h
    · exact hpre t h
    · rw [List.mem_singleton.1 h]
      exact htc
  obtain ⟨rs2, hrs2, hmain2⟩ := main_encode (pre ++ [tc]) hwf
  obtain ⟨r, hr, _⟩ := solve_spec tc.1 tc.2 tc.1.length rfl htc.symm
  have hboth : List.Forall₂ (fun t r => solve t.1.length t.1 t.2 = .ok r) (pre ++ [tc])
      (rs ++ [r]) := List.rel_append hrs (List.Forall₂.cons hr List.Forall₂.nil)
  have hfun : Relator.RightUnique
      (fun (t : TestCase) (r : List Int) => solve t.1.length t.1 t.2 = .ok r) := by
    intro t r1 r2 h1 h2
    rw [h1] at h2
    injection h2
  have heq : rs2 = rs ++ [r] := List.right_unique_forall₂' hfun hrs2 hboth
  refine ⟨String.join (rs.map printLine), r, hmain, hr, ?_⟩
  rw [hmain2, heq, List.map_append, List.map_singleton, join_append_singleton]

/-- Witness of C10 with `pre = [([1,5],[3,2])]` and `tc = ([0],[0])`, together with
the text printed for the two test cases. -/
theorem C10_cases_independent_witness :
    ((∃ rs : List (List Int),
      List.Forall₂ (fun t r => solve t.1.length t.1 t.2 = .ok r)
        [(([1, 5], [3, 2]) : TestCase)] rs ∧
      main (encode [(([1, 5], [3, 2]) : TestCase)]) = .ok (String.join (rs.map printLine))) ∧
    (∃ out r, main (encode [(([1, 5], [3, 2]) : TestCase)]) = .ok out ∧
      solve (([0], [0]) : TestCase).1.length (([0], [0]) : TestCase).1
        (([0], [0]) : TestCase).2 = .ok r ∧
      main (encode ([(([1, 5], [3, 2]) : TestCase)] ++ [(([0], [0]) : TestCase)])) =
        .ok (out ++ printLine r))) ∧
    main [2, 2, 1, 5, 3, 2, 1, 0, 0] = .ok "10 40 \n2 \n" :=
  ⟨C10_cases_independent [([1, 5], [3, 2])] ([0], [0]) (by decide) rfl, by decide⟩

/-! ## Length of the result (C11) -/

/-- C11: for every `n ≥ 0` and sequences `a`, `b` of non-negative integers of length
`n`, `solve` returns a result of length exactly `n`, and the test case prints the
line made of these `n` values. -/
theorem C11_result_length (a b : List Int) (n : Nat)
    (ha : a.length = n) (hb : b.length = n)
    (_hna : ∀ x ∈ a, 0 ≤ x) (_hnb : ∀ x ∈ b, 0 ≤ x) :
    ∃ r, solve n a b = .ok r ∧ r.length = n ∧
      ∀ rest, solveCase ((n : Int) :: (a ++ b) ++ rest) = .ok (printLine r, rest) := by
  obtain ⟨r, hr, hlen, _⟩ := solve_spec a b n ha hb
  refine ⟨r, hr, hlen, ?_⟩
  intro rest
  have h := solveCase_encodeCase (a, b) rest (by rw [ha, hb])
  simp only [encodeCase, ha] at h
  rw [h, hr]

/-- Witness of C11 at `n = 2`, `a = [1,5]`, `b = [3,2]`. -/
theorem C11_result_length_witness :
    ∃ r, solve 2 [1, 5] [3, 2] = .ok r ∧ r.length = 2 ∧
      ∀ rest, solveCase (((2 : Nat) : Int) :: ([1, 5] ++ [3, 2]) ++ rest) =
        .ok (printLine r, rest) :=
  C11_result_length [1, 5] [3, 2] 2 rfl rfl (by decide) (by decide)

/-! ## The multiplication helpers (C13, C18) -/

theorem tmod_M_negSucc (m : Nat) :
    (Int.negSucc m).tmod M = -(((m + 1) % 998244353 : Nat) : Int) := rfl

theorem mod_eq_emod (x : Int) : mod x = x % M := by
  have hM : M = 998244353 := rfl
  cases x with
  | ofNat n =>
    have h0 : (0 : Int) ≤ Int.ofNat n := Int.ofNat_nonneg n
    have h1 : (0 : Int) ≤ Int.ofNat n % M + M := by
      have := emod_M_nonneg (Int.ofNat n)
      omega
    unfold mod
    rw [tmod_M_of_nonneg h0, tmod_M_of_nonneg h1]
    simp only [hM]
    omega
  | negSucc m =>
    have h1 : (0 : Int) ≤ -(((m + 1) % 998244353 : Nat) : Int) + M := by
      rw [hM]
      omega
    unfold mod
    rw [tmod_M_negSucc, tmod_M_of_nonneg h1]
    simp only [hM, Int.negSucc_eq]
    omega

theorem mul_eq_emod (a b : Int) : mul a b = a * b % M := by
  unfold mul
  rw [mod_eq_emod, mod_eq_emod, mod_eq_emod, ← Int.mul_emod]

/-- C13: for `a ≥ 0` and `b ≥ 0`, in exact integer arithmetic `binMul a b` returns
`(a * b) mod 998244353`, a value of `[0, 998244353)`. -/
theorem C13_binMul_exact (a b : Int) (ha : 0 ≤ a) (hb : 0 ≤ b) :
    ∃ v, binMul a b = .ok v ∧ v = a * b % 998244353 ∧ 0 ≤ v ∧ v < 998244353 :=
  ⟨a * b % M, binMul_eq ha hb, rfl, emod_M_nonneg _, emod_M_lt _⟩

/-- Witness of C13 at `a = 123456789`, `b = 987654321`. -/
theorem C13_binMul_exact_witness :
    ∃ v, binMul 123456789 987654321 = .ok v ∧ v = 123456789 * 987654321 % 998244353 ∧
      0 ≤ v ∧ v < 998244353 :=
  C13_binMul_exact 123456789 987654321 (by decide) (by decide)

/-- C18: for `a ≥ 0` and `b ≥ 0`, in exact integer arithmetic `binMul a b` returns
`mul a b`, both being `(a * b) mod 998244353`; and for every integer `x`,
negative ones included, `mod x` lies in `[0, 998244353)` and is congruent to `x`
modulo `998244353`. -/
theorem C18_mul_agrees_with_binMul (a b x : Int) (ha : 0 ≤ a) (hb : 0 ≤ b) :
    binMul a b = .ok (mul a b) ∧ mul a b = a * b % 998244353 ∧
      0 ≤ mod x ∧ mod x < 998244353 ∧ mod x ≡ x [ZMOD 998244353] := by
  have hM : (998244353 : Int) = M := rfl
  refine ⟨?_, mul_eq_emod a b, ?_, ?_, ?_⟩
  · rw [mul_eq_emod]
    exact binMul_eq ha hb
  · rw [mod_eq_emod]
    exact emod_M_nonneg _
  · rw [mod_eq_emod]
    exact emod_M_lt _
  · rw [mod_eq_emod, hM]
    exact Int.mod_modEq x M

/-- Witness of C18 at `a = 3`, `b = 5`, `x = -7`. -/
theorem C18_mul_agrees_with_binMul_witness :
    binMul 3 5 = .ok (mul 3 5) ∧ mul 3 5 = 3 * 5 % 998244353 ∧
      0 ≤ mod (-7) ∧ mod (-7) < 998244353 ∧ mod (-7) ≡ -7 [ZMOD 998244353] :=
  C18_mul_agrees_with_binMul 3 5 (-7) (by decide) (by decide)

/-! ## The map only grows (C12) -/

theorem pairCount_push (m : ValueMap) (k : Int) (x : Entry) :
    pairCount (push m k x) = pairCount m + 1 := by
  induction m with
  | nil => simp [push, pairCount]
  | cons p rest ih =>
    obtain ⟨k2, v⟩ := p
    have ih1 : (List.map (fun p => p.2.length) (push rest k x)).sum =
        (List.map (fun p => p.2.length) rest).sum + 1 := ih
    unfold push
    by_cases h1 : k < k2
    · rw [if_pos h1]
      simp [pairCount]
      omega
    · rw [if_neg h1]
      by_cases h2 : k = k2
      · rw [if_pos h2]
        simp [pairCount]
        omega
      · rw [if_neg h2]
        simp only [pairCount, List.map_cons, List.sum_cons, ih1]
        omega

theorem mapAt_pairCount (a b : List Int) (k : Nat) :
    ∀ m, mapAt a b k = .ok m → pairCount m = 2 * k := by
  induction k with
  | zero =>
    intro m hm
    cases hm
    rfl
  | succ k ih =>
    intro m2 hm2
    unfold mapAt at hm2
    cases hm : mapAt a b k with
    | error f =>
      rw [hm] at hm2
      cases hm2
    | ok m =>
      rw [hm] at hm2
      dsimp only at hm2
      unfold insertBoth at hm2
      cases hai : index a (k : Int) with
      | error f =>
        rw [hai] at hm2
        cases hm2
      | ok ai =>
        rw [hai] at hm2
        dsimp only at hm2
        cases hbi : index b (k : Int) with
        | error f =>
          rw [hbi] at hm2
          cases hm2
        | ok bi =>
          rw [hbi] at hm2
          dsimp only at hm2
          injection hm2 with hm2
          rw [← hm2, pairCount_push, pairCount_push, ih m hm]
          omega

theorem lookup_of_mem (m : ValueMap) (hs : (keys m).Pairwise (· < ·)) (k : Int)
    (v : List Entry) (h : (k, v) ∈ m) : lookup m k = v := by
  induction m with
  | nil => simp at h
  | cons p rest ih =>
    obtain ⟨k2, w⟩ := p
    have hs1 : (∀ y ∈ keys rest, k2 < y) ∧ (keys rest).Pairwise (· < ·) := by
      simpa [keys] using hs
    rcases List.mem_cons.1 h with h | h
    · injection h with h1 h2
      subst h1
      subst h2
      simp [lookup]
    · have hk : k ∈ keys rest := List.mem_map.2 ⟨(k, v), h, rfl⟩
      have hlt := hs1.1 k hk
      have hne : k ≠ k2 := by omega
      simp only [lookup, hne, if_false]
      exact ih hs1.2 h

theorem mem_of_mem_keys (m : ValueMap) (k : Int) (h : k ∈ keys m) : (k, lookup m k) ∈ m := by
  induction m with
  | nil => simp [keys] at h
  | cons p rest ih =>
    obtain ⟨k2, w⟩ := p
    by_cases hk : k = k2
    · subst hk
      simp [lookup]
    · have h1 : k = k2 ∨ k ∈ keys rest := by simpa [keys] using h
      rcases h1 with h1 | h1
      · exact absurd h1 hk
      · simp only [lookup, hk, if_false]
        exact List.mem_cons_of_mem _ (ih h1)

/-- C12: for integer sequences `a`, `b` of length `n` and a position `i < n`, the map
`m` held by the loop of `solve` after processing positions `0..i` stores at most
`2(i+1)` pairs (exactly that many), and, when position `i+1` exists, every list
`v` stored under a key `k` after position `i` is a prefix of the list stored
under the same key `k` after position `i+1`: no pair is removed or reordered. -/
theorem C12_map_grows (a b : List Int) (n : Nat) (ha : a.length = n) (hb : b.length = n)
    (i : Nat) (hi : i < n) :
    ∃ s1, solveLoop a b (List.range (i + 1)) (LoopState.init n) = .ok s1 ∧
      pairCount s1.m ≤ 2 * (i + 1) ∧ pairCount s1.m = 2 * (i + 1) ∧
      (i + 1 < n →
        ∃ s2, solveLoop a b (List.range (i + 2)) (LoopState.init n) = .ok s2 ∧
          ∀ k v, (k, v) ∈ s1.m → ∃ v2, (k, v2) ∈ s2.m ∧ v <+: v2) := by
  obtain ⟨s1, hloop1, hm1, _⟩ := solveLoop_range a b n ha hb (i + 1) (by omega)
  have hcount := mapAt_pairCount a b (i + 1) s1.m hm1
  refine ⟨s1, hloop1, by omega, hcount, ?_⟩
  intro hi2
  obtain ⟨s2, hloop2, hm2, _⟩ := solveLoop_range a b n ha hb (i + 2) (by omega)
  refine ⟨s2, hloop2, ?_⟩
  obtain ⟨m1, e1, hs1, hk1, hl1⟩ := mapAt_inv a b (i + 1) (by omega) (by omega)
  obtain ⟨m2, e2, hs2, hk2, hl2⟩ := mapAt_inv a b (i + 2) (by omega) (by omega)
  rw [hm1] at e1
  rw [hm2] at e2
  injection e1 with e1
  injection e2 with e2
  subst e1
  subst e2
  intro k v hkv
  have hv : lookup s1.m k = v := lookup_of_mem s1.m hs1 k v hkv
  have hkey1 : k ∈ keys s1.m := List.mem_map.2 ⟨(k, v), hkv, rfl⟩
  have hkey2 : k ∈ keys s2.m := by
    obtain ⟨j, hj, h⟩ := (hk1 k).1 hkey1
    exact (hk2 k).2 ⟨j, by omega, h⟩
  refine ⟨lookup s2.m k, mem_of_mem_keys s2.m k hkey2, ?_⟩
  have hsucc : entriesFor a b (i + 2) k =
      entriesFor a b (i + 1) k ++
        ((if a[i + 1]? = some k then [(((i + 1 : Nat) : Int), (1 : Int))] else []) ++
         (if b[i + 1]? = some k then [(((i + 1 : Nat) : Int), (2 : Int))] else [])) :=
    entriesFor_succ a b (i + 1) k
  rw [← hv, hl1, hl2, hsucc]
  exact List.prefix_append _ _

/-- Witness of C12 at `a = [5,1,5]`, `b = [5,2,0]`, `i = 1`. -/
theorem C12_map_grows_witness :
    ∃ s1, solveLoop [5, 1, 5] [5, 2, 0] (List.range (1 + 1)) (LoopState.init 3) = .ok s1 ∧
      pairCount s1.m ≤ 2 * (1 + 1) ∧ pairCount s1.m = 2 * (1 + 1) ∧
      (1 + 1 < 3 →
        ∃ s2, solveLoop [5, 1, 5] [5, 2, 0] (List.range (1 + 2)) (LoopState.init 3) = .ok s2 ∧
          ∀ k v, (k, v) ∈ s1.m → ∃ v2, (k, v2) ∈ s2.m ∧ v <+: v2) :=
  C12_map_grows [5, 1, 5] [5, 2, 0] 3 rfl rfl 1 (by decide)

/-! ## Index safety (C14) -/

/-- C14: for `n ≥ 1`, integer sequences `a`, `b` of length `n` and a position `i < n`,
`solve` returns without an out-of-range access, and every index it forms at
position `i` lies in `[0, i]`, hence in `[0, n)`: the stored position `j` and
the distance `|i - j|` of every scanned entry, and, when a candidate is
selected, the winning `ix` and `|ix - i|`. -/
theorem C14_index_safety (a b : List Int) (n : Nat) (_hn : 1 ≤ n)
    (ha : a.length = n) (hb : b.length = n) (i : Nat) (hi : i < n) :
    ∃ r K t sel, solve n a b = .ok r ∧ scannedAt a b i = .ok (K, t) ∧
      selAt a b i = .ok sel ∧ (i : Int) < (n : Int) ∧
      (∀ e ∈ t, 0 ≤ e.1 ∧ e.1 ≤ (i : Int) ∧
        ((((i : Int) - e.1).natAbs : Nat) : Int) ≤ (i : Int) ∧
        ∃ v, compVal a b (i : Int) e = .ok v) ∧
      (sel.ar ≠ 0 → 0 ≤ sel.ix ∧ sel.ix ≤ (i : Int) ∧
        (((sel.ix - (i : Int)).natAbs : Nat) : Int) ≤ (i : Int) ∧
        (∃ v, index a sel.ix = .ok v) ∧ (∃ v, index b sel.ix = .ok v) ∧
        (∃ v, index a (((sel.ix - (i : Int)).natAbs : Nat) : Int) = .ok v) ∧
        (∃ v, index b (((sel.ix - (i : Int)).natAbs : Nat) : Int) = .ok v)) := by
  have hia : i < a.length := by omega
  have hib : i < b.length := by omega
  obtain ⟨r, hr, _, _⟩ := solve_spec a b n ha hb
  obtain ⟨m2, K, t, sel, hm, hrb, hsel, ht, _, hKmax, hcase⟩ := position_spec a b i hia hib
  obtain ⟨hsc, hsa⟩ := selAt_eq a b i m2 K t hm hrb
  have hs : selAt a b i = .ok sel := by rw [hsa, hsel]
  have hread : ∀ (v : List Int) (k : Nat), k < v.length → ∃ x, index v (k : Int) = .ok x :=
    fun v k hk => ⟨v[k], index_natCast v k _ (List.getElem?_eq_getElem hk)⟩
  refine ⟨r, K, t, sel, hr, hsc, hs, by omega, ?_, ?_⟩
  · intro e he
    rw [ht] at he
    obtain ⟨j, v, hji, hj, _, hv, _, habs, _, _⟩ := entry_facts a b i K e he hia hib hKmax
    refine ⟨by omega, by omega, ?_, v, hv⟩
    rw [habs]
    omega
  · intro har0
    rcases hcase with ⟨heq, _⟩ | ⟨pre, e, post, j, _, hji, _, _, hix, _, _, _, _, _, _⟩
    · rw [heq] at har0
      exact absurd rfl har0
    · have h1 : (((sel.ix - (i : Int)).natAbs : Nat) : Int) = (j : Int) := by
        rw [hix]
        omega
      rw [h1, hix]
      exact ⟨by omega, by omega, by omega, hread a _ (by omega), hread b _ (by omega),
        hread a _ (by omega), hread b _ (by omega)⟩

/-- Witness of C14 at `n = 2`, `a = [1,-5]`, `b = [-3,2]`, `i = 1`. -/
theorem C14_index_safety_witness :
    ∃ r K t sel, solve 2 [1, -5] [-3, 2] = .ok r ∧ scannedAt [1, -5] [-3, 2] 1 = .ok (K, t) ∧
      selAt [1, -5] [-3, 2] 1 = .ok sel ∧ ((1 : Nat) : Int) < ((2 : Nat) : Int) ∧
      (∀ e ∈ t, 0 ≤ e.1 ∧ e.1 ≤ ((1 : Nat) : Int) ∧
        (((((1 : Nat) : Int) - e.1).natAbs : Nat) : Int) ≤ ((1 : Nat) : Int) ∧
        ∃ v, compVal [1, -5] [-3, 2] ((1 : Nat) : Int) e = .ok v) ∧
      (sel.ar ≠ 0 → 0 ≤ sel.ix ∧ sel.ix ≤ ((1 : Nat) : Int) ∧
        (((sel.ix - ((1 : Nat) : Int)).natAbs : Nat) : Int) ≤ ((1 : Nat) : Int) ∧
        (∃ v, index [1, -5] sel.ix = .ok v) ∧ (∃ v, index [-3, 2] sel.ix = .ok v) ∧
        (∃ v, index [1, -5] (((sel.ix - ((1 : Nat) : Int)).natAbs : Nat) : Int) = .ok v) ∧
        (∃ v, index [-3, 2] (((sel.ix - ((1 : Nat) : Int)).natAbs : Nat) : Int) = .ok v)) :=
  C14_index_safety [1, -5] [-3, 2] 2 (by decide) rfl rfl 1 (by decide)

/-! ## The two exponents are the winning comparison value and the maximum key (C15) -/

/-- C15: for sequences `a`, `b` of non-negative integers of length `n` and a position
`i < n`, the winning entry `(j, tag)` of the scanned list satisfies `ix = i - j`
and `|ix - i| = j`; the first exponent of the result formula is the winning
comparison value `mx` and the second is the scanned key `K`, the maximum of
`a[0..i]`, `b[0..i]`; and `result[i] = (2^mx + 2^K) mod 998244353` with
`0 ≤ mx ≤ K`, whichever tag won. -/
theorem C15_exponents (a b : List Int) (n : Nat)
    (ha : a.length = n) (hb : b.length = n)
    (hna : ∀ x ∈ a, 0 ≤ x) (hnb : ∀ x ∈ b, 0 ≤ x) (i : Nat) (hi : i < n) :
    ∃ r K t sel, ∃ j : Nat, solve n a b = .ok r ∧ scannedAt a b i = .ok (K, t) ∧
      selAt a b i = .ok sel ∧
      ((j : Int), sel.ar) ∈ t ∧ j ≤ i ∧ sel.ix = (i : Int) - (j : Int) ∧
      (((sel.ix - (i : Int)).natAbs : Nat) : Int) = (j : Int) ∧
      (∃ l, l ≤ i ∧ (a[l]? = some K ∨ b[l]? = some K)) ∧
      (∀ l x, l ≤ i → (a[l]? = some x ∨ b[l]? = some x) → x ≤ K) ∧
      (sel.ar = 1 ∨ sel.ar = 2) ∧
      (sel.ar = 1 → index b sel.ix = .ok sel.mx ∧
        index a (((sel.ix - (i : Int)).natAbs : Nat) : Int) = .ok K) ∧
      (sel.ar = 2 → index a sel.ix = .ok sel.mx ∧
        index b (((sel.ix - (i : Int)).natAbs : Nat) : Int) = .ok K) ∧
      0 ≤ sel.mx ∧ sel.mx ≤ K ∧
      r[i]? = some ((2 ^ sel.mx.toNat + 2 ^ K.toNat) % 998244353) := by
  have hia : i < a.length := by omega
  have hib : i < b.length := by omega
  have hM : (998244353 : Int) = M := rfl
  obtain ⟨r, hr, _, hval⟩ := solve_spec a b n ha hb
  obtain ⟨v, hv, hri⟩ := hval i hi
  obtain ⟨m2, K, t, sel, hm, hrb, hsel, ht, hKmem, hKmax, hcase⟩ := position_spec a b i hia hib
  obtain ⟨hsc, hsa⟩ := selAt_eq a b i m2 K t hm hrb
  have hs : selAt a b i = .ok sel := by rw [hsa, hsel]
  rcases hcase with ⟨_, hall⟩ |
    ⟨pre, e, post, j, hsplit, hji, hj, _, hix, har, hmx0, hmxK, _, _, h⟩
  · exact absurd hall (sel_found a b i hia hib hna hnb K t ht hKmem hKmax)
  · have habs : (((sel.ix - (i : Int)).natAbs : Nat) : Int) = (j : Int) := by
      rw [hix]
      omega
    have hmem : ((j : Int), sel.ar) ∈ t := by
      rw [hsplit, har, ← hj]
      simp
    have hixe : sel.ix = (i : Int) - (j : Int) := by
      rw [hix]
      omega
    rw [valueAt, hs] at hv
    dsimp only at hv
    rcases h with ⟨htag, h3, h4, hc⟩ | ⟨htag, h3, h4, hc⟩
    · have h1 : sel.ar = 1 := har.trans htag
      have h2 : ¬ sel.ar = 2 := by rw [h1]; decide
      rw [if_pos h1, hc] at hv
      injection hv with hv
      refine ⟨r, K, t, sel, j, hr, hsc, hs, hmem, hji, hixe, habs, hKmem, hKmax, Or.inl h1,
        ?_, fun h => absurd h h2, hmx0, hmxK, ?_⟩
      · intro _
        rw [habs]
        refine ⟨?_, index_natCast a _ _ h3⟩
        rw [hix]
        exact index_natCast b _ _ h4
      · rw [hri, ← hv, hM, ← Int.add_emod]
    · have h2 : sel.ar = 2 := har.trans htag
      have h1 : ¬ sel.ar = 1 := by rw [h2]; decide
      rw [if_neg h1, if_pos h2, hc] at hv
      injection hv with hv
      refine ⟨r, K, t, sel, j, hr, hsc, hs, hmem, hji, hixe, habs, hKmem, hKmax, Or.inr h2,
        fun h => absurd h h1, ?_, hmx0, hmxK, ?_⟩
      · intro _
        rw [habs]
        refine ⟨?_, index_natCast b _ _ h3⟩
        rw [hix]
        exact index_natCast a _ _ h4
      · rw [hri, ← hv, hM, ← Int.add_emod]

/-- Witness of C15 at `n = 2`, `a = [1,5]`, `b = [3,2]`, `i = 1`. -/
theorem C15_exponents_witness :
    ∃ r K t sel, ∃ j : Nat, solve 2 [1, 5] [3, 2] = .ok r ∧
      scannedAt [1, 5] [3, 2] 1 = .ok (K, t) ∧
      selAt [1, 5] [3, 2] 1 = .ok sel ∧
      ((j : Int), sel.ar) ∈ t ∧ j ≤ 1 ∧ sel.ix = ((1 : Nat) : Int) - (j : Int) ∧
      (((sel.ix - ((1 : Nat) : Int)).natAbs : Nat) : Int) = (j : Int) ∧
      (∃ l, l ≤ 1 ∧ (([1, 5] : List Int)[l]? = some K ∨ ([3, 2] : List Int)[l]? = some K)) ∧
      (∀ l x, l ≤ 1 →
        (([1, 5] : List Int)[l]? = some x ∨ ([3, 2] : List Int)[l]? = some x) → x ≤ K) ∧
      (sel.ar = 1 ∨ sel.ar = 2) ∧
      (sel.ar = 1 → index [3, 2] sel.ix = .ok sel.mx ∧
        index [1, 5] (((sel.ix - ((1 : Nat) : Int)).natAbs : Nat) : Int) = .ok K) ∧
      (sel.ar = 2 → index [1, 5] sel.ix = .ok sel.mx ∧
        index [3, 2] (((sel.ix - ((1 : Nat) : Int)).natAbs : Nat) : Int) = .ok K) ∧
      0 ≤ sel.mx ∧ sel.mx ≤ K ∧
      r[1]? = some ((2 ^ sel.mx.toNat + 2 ^ K.toNat) % 998244353) :=
  C15_exponents [1, 5] [3, 2] 2 rfl rfl (by decide) (by decide) 1 (by decide)

/-! ## Swap symmetry (C16) -/

theorem swap_entry (a b : List Int) (i : Nat) (K : Int) (e : Entry)
    (he : e ∈ entriesFor a b (i + 1) K) :
    ∃ e1, e1 ∈ entriesFor b a (i + 1) K ∧ compVal b a (i : Int) e1 = compVal a b (i : Int) e := by
  obtain ⟨j, hj, h⟩ := (mem_entriesFor a b (i + 1) K e).1 he
  rcases h with ⟨rfl, h⟩ | ⟨rfl, h⟩
  · refine ⟨((j : Int), 2), (mem_entriesFor b a (i + 1) K _).2 ⟨j, hj, Or.inr ⟨rfl, h⟩⟩, ?_⟩
    show (if (2 : Int) = 1 then index a _ else index b _) =
      (if (1 : Int) = 1 then index b _ else index a _)
    rw [if_neg (by decide), if_pos rfl]
  · refine ⟨((j : Int), 1), (mem_entriesFor b a (i + 1) K _).2 ⟨j, hj, Or.inl ⟨rfl, h⟩⟩, ?_⟩
    show (if (1 : Int) = 1 then index a _ else index b _) =
      (if (2 : Int) = 1 then index b _ else index a _)
    rw [if_pos rfl, if_neg (by decide)]

theorem position_value (a b : List Int) (i : Nat) (ha : i < a.length) (hb : i < b.length) :
    ∃ (K : Int) (t : List Entry) (mx : Int), t = entriesFor a b (i + 1) K ∧
      (∃ j, j ≤ i ∧ (a[j]? = some K ∨ b[j]? = some K)) ∧
      (∀ j x, j ≤ i → (a[j]? = some x ∨ b[j]? = some x) → x ≤ K) ∧
      ((valueAt a b i = .ok 0 ∧ ∀ e ∈ t, ∀ v, compVal a b (i : Int) e = .ok v → v ≤ -1) ∨
       ((∃ e, e ∈ t ∧ compVal a b (i : Int) e = .ok mx) ∧ 0 ≤ mx ∧
        (∀ e ∈ t, ∀ v, compVal a b (i : Int) e = .ok v → v ≤ mx) ∧
        valueAt a b i = .ok ((2 ^ mx.toNat % M + 2 ^ K.toNat % M) % M))) := by
  obtain ⟨m2, K, t, sel, hm, hrb, hsel, ht, hKmem, hKmax, hcase⟩ := position_spec a b i ha hb
  have hs : selAt a b i = .ok sel := by rw [(selAt_eq a b i m2 K t hm hrb).2, hsel]
  refine ⟨K, t, sel.mx, ht, hKmem, hKmax, ?_⟩
  rcases hcase with ⟨heq, hall⟩ |
    ⟨pre, e, post, j, hsplit, _, _, hv, _, har, hmx0, _, hpre, hpost, h⟩
  · left
    refine ⟨?_, hall⟩
    rw [valueAt, hs, heq]
    rfl
  · right
    have hemem : e ∈ t := by rw [hsplit]; simp
    refine ⟨⟨e, hemem, hv⟩, hmx0, ?_, ?_⟩
    · intro e1 he1 v1 hv1
      rw [hsplit] at he1
      rcases List.mem_append.1 he1 with h1 | h1
      · exact le_of_lt (hpre e1 h1 v1 hv1)
      · rcases List.mem_cons.1 h1 with rfl | h1
        · rw [hv] at hv1
          injection hv1 with hv1
          omega
        · exact hpost e1 h1 v1 hv1
    · rw [valueAt, hs]
      dsimp only
      rcases h with ⟨htag, _, _, hc⟩ | ⟨htag, _, _, hc⟩
      · rw [if_pos (har.trans htag)]
        exact hc
      · have h1 : ¬ sel.ar = 1 := by rw [har, htag]; decide
        rw [if_neg h1, if_pos (har.trans htag)]
        exact hc

theorem valueAt_swap (a b : List Int) (i : Nat) (ha : i < a.length) (hb : i < b.length) :
    valueAt a b i = valueAt b a i := by
  obtain ⟨K1, t1, mx1, ht1, hmem1, hmax1, hc1⟩ := position_value a b i ha hb
  obtain ⟨K2, t2, mx2, ht2, hmem2, hmax2, hc2⟩ := position_value b a i hb ha
  have hK : K1 = K2 := by
    obtain ⟨j1, hj1, h1⟩ := hmem1
    obtain ⟨j2, hj2, h2⟩ := hmem2
    exact le_antisymm (hmax2 j1 K1 hj1 h1.symm) (hmax1 j2 K2 hj2 h2.symm)
  subst hK
  have h12 : ∀ e ∈ t1, ∀ v, compVal a b (i : Int) e = .ok v →
      ∃ e1, e1 ∈ t2 ∧ compVal b a (i : Int) e1 = .ok v := by
    intro e he v hv
    rw [ht1] at he
    obtain ⟨e1, he1, hcv⟩ := swap_entry a b i K1 e he
    exact ⟨e1, by rw [ht2]; exact he1, by rw [hcv, hv]⟩
  have h21 : ∀ e ∈ t2, ∀ v, compVal b a (i : Int) e = .ok v →
      ∃ e1, e1 ∈ t1 ∧ compVal a b (i : Int) e1 = .ok v := by
    intro e he v hv
    rw [ht2] at he
    obtain ⟨e1, he1, hcv⟩ := swap_entry b a i K1 e he
    exact ⟨e1, by rw [ht1]; exact he1, by rw [hcv, hv]⟩
  rcases hc1 with ⟨hv1, hall1⟩ | ⟨⟨e1, he1, hcv1⟩, h01, hle1, hv1⟩ <;>
    rcases hc2 with ⟨hv2, hall2⟩ | ⟨⟨e2, he2, hcv2⟩, h02, hle2, hv2⟩
  · rw [hv1, hv2]
  · obtain ⟨e3, he3, hcv3⟩ := h21 e2 he2 mx2 hcv2
    have := hall1 e3 he3 mx2 hcv3
    omega
  · obtain ⟨e3, he3, hcv3⟩ := h12 e1 he1 mx1 hcv1
    have := hall2 e3 he3 mx1 hcv3
    omega
  · obtain ⟨e3, he3, hcv3⟩ := h21 e2 he2 mx2 hcv2
    obtain ⟨e4, he4, hcv4⟩ := h12 e1 he1 mx1 hcv1
    have hA := hle1 e3 he3 mx2 hcv3
    have hB := hle2 e4 he4 mx1 hcv4
    have hmx : mx1 = mx2 := le_antisymm hB hA
    rw [hv1, hv2, hmx]

/-- C16: for sequences `a`, `b` of non-negative integers of equal length, `solve` on
`(a, b)` and on `(b, a)` returns the same result sequence, although the winning
tag may differ (for `a = [1,5]`, `b = [3,2]` at position 1 the tag is 1 for
`(a, b)` and 2 for `(b, a)`). -/
theorem C16_swap_symmetry (a b : List Int) (n : Nat)
    (ha : a.length = n) (hb : b.length = n)
    (_hna : ∀ x ∈ a, 0 ≤ x) (_hnb : ∀ x ∈ b, 0 ≤ x) :
    (∃ r, solve n a b = .ok r ∧ solve n b a = .ok r) ∧
    selAt [1, 5] [3, 2] 1 = .ok ⟨3, 0, 1⟩ ∧ selAt [3, 2] [1, 5] 1 = .ok ⟨3, 0, 2⟩ := by
  refine ⟨?_, by decide, by decide⟩
  obtain ⟨r1, hr1, hlen1, hval1⟩ := solve_spec a b n ha hb
  obtain ⟨r2, hr2, hlen2, hval2⟩ := solve_spec b a n hb ha
  refine ⟨r1, hr1, ?_⟩
  rw [hr2]
  congr 1
  apply List.ext_getElem?
  intro k
  by_cases hk : k < n
  · obtain ⟨v1, hv1, hk1⟩ := hval1 k hk
    obtain ⟨v2, hv2, hk2⟩ := hval2 k hk
    rw [valueAt_swap a b k (by omega) (by omega), hv2] at hv1
    injection hv1 with hv1
    rw [hk1, hk2, hv1]
  · rw [List.getElem?_eq_none (by omega), List.getElem?_eq_none (by omega)]

/-- Witness of C16 at `n = 3`, `a = [5,1,5]`, `b = [5,2,0]`. -/
theorem C16_swap_symmetry_witness :
    (∃ r, solve 3 [5, 1, 5] [5, 2, 0] = .ok r ∧ solve 3 [5, 2, 0] [5, 1, 5] = .ok r) ∧
    selAt [1, 5] [3, 2] 1 = .ok ⟨3, 0, 1⟩ ∧ selAt [3, 2] [1, 5] 1 = .ok ⟨3, 0, 2⟩ :=
  C16_swap_symmetry [5, 1, 5] [5, 2, 0] 3 rfl rfl (by decide) (by decide)

/-! ## Termination (C17) -/

theorem binMulLoop_succ (fuel : Nat) :
    ∀ (ans a b v : Int), binMulLoop fuel ans a b = .ok v →
      binMulLoop (fuel + 1) ans a b = .ok v := by
  induction fuel with
  | zero =>
    intro ans a b v h
    unfold binMulLoop at h ⊢
    by_cases hb : b = 0
    · rw [if_pos hb] at h ⊢
      exact h
    · rw [if_neg hb] at h
      cases h
  | succ fuel ih =>
    intro ans a b v h
    unfold binMulLoop at h ⊢
    by_cases hb : b = 0
    · rw [if_pos hb] at h ⊢
      exact h
    · rw [if_neg hb] at h ⊢
      exact ih _ _ _ v h

theorem binMulLoop_mono (fuel1 fuel2 : Nat) (hle : fuel1 ≤ fuel2) (ans a b v : Int)
    (h : binMulLoop fuel1 ans a b = .ok v) : binMulLoop fuel2 ans a b = .ok v := by
  induction fuel2 with
  | zero =>
    have : fuel1 = 0 := by omega
    subst this
    exact h
  | succ fuel2 ih =>
    by_cases heq : fuel1 = fuel2 + 1
    · subst heq
      exact h
    · exact binMulLoop_succ fuel2 ans a b v (ih (by omega))

theorem binMulLoop_terminates (fuel : Nat) :
    ∀ (n : Nat) (ans a : Int), n ≤ fuel → ∃ v, binMulLoop fuel ans a (n : Int) = .ok v := by
  induction fuel with
  | zero =>
    intro n ans a hn
    have : n = 0 := by omega
    subst this
    exact ⟨ans, by simp [binMulLoop]⟩
  | succ fuel ih =>
    intro n ans a hn
    by_cases hz : n = 0
    · subst hz
      exact ⟨ans, by simp [binMulLoop]⟩
    · have hne : (n : Int) ≠ 0 := by exact_mod_cast hz
      rw [binMulLoop, if_neg hne]
      simp only [shiftRight_one_natCast]
      exact ih (n / 2) _ _ (by omega)

theorem powerLoop_neg_base (fuel : Nat) (ans x b : Int) (hx : x < 0) (hb : b ≠ 0) :
    powerLoop fuel ans x b = .error .diverges := by
  have hmul : ∀ y : Int, binMul y x = .error .diverges :=
    fun y => binMulLoop_neg _ _ _ _ hx
  cases fuel with
  | zero =>
    unfold powerLoop
    rw [if_neg hb]
  | succ fuel =>
    unfold powerLoop
    rw [if_neg hb]
    dsimp only
    rw [hmul ans, hmul x]
    by_cases hbit : Int.land b 1 ≠ 0
    · rw [if_pos hbit]
    · rw [if_neg hbit]

/-! ### The same loops in 64-bit arithmetic -/

theorem addWrap64_small (x y : Int) (h0 : -(2 ^ 63) ≤ x + y) (h1 : x + y < 2 ^ 63) :
    addWrap64 x y = .ok (x + y) := by
  unfold addWrap64 wrap64
  congr 1
  omega

theorem neg_tmod_M {s : Int} (hs : 0 ≤ s) : (-s).tmod M = -(s.tmod M) := by
  obtain ⟨n, rfl⟩ := Int.eq_ofNat_of_zero_le hs
  cases n with
  | zero => rfl
  | succ k =>
    have h1 : (-((k + 1 : Nat) : Int)) = Int.negSucc k := rfl
    have h2 : (((k + 1 : Nat) : Int)).tmod M = (((k + 1) % 998244353 : Nat) : Int) := by
      rw [tmod_M_of_nonneg hs]
      rfl
    rw [h1, tmod_M_negSucc, h2]

theorem addMod_wrap_neg (x y : Int) (hx0 : 0 ≤ x) (hx : x < M) (hy0 : 0 ≤ y) (hy : y < M) :
    addMod addWrap64 (-x) (-y) = .ok (-((x + y).tmod M)) := by
  have hM : M = 998244353 := rfl
  have hsum : -x + -y = -(x + y) := by omega
  rw [addMod, addWrap64_small (-x) (-y) (by omega) (by omega)]
  dsimp only
  rw [hsum, neg_tmod_M (by omega)]

theorem binMulLoopWith_step (add : Int → Int → Except Fault Int) (fuel : Nat)
    (ans a b : Int) (hb : b ≠ 0) :
    binMulLoopWith add (fuel + 1) ans a b =
      match (if Int.land b 1 ≠ 0 then addMod add ans a else .ok ans) with
      | .error f => .error f
      | .ok ans1 =>
        match addMod add a a with
        | .error f => .error f
        | .ok a1 => binMulLoopWith add fuel ans1 a1 (b >>> 1) := by
  rw [binMulLoopWith, if_neg hb]

theorem powerLoopWith_step (add : Int → Int → Except Fault Int) (fuel : Nat)
    (ans a b : Int) (hb : b ≠ 0) :
    powerLoopWith add (fuel + 1) ans a b =
      match (if Int.land b 1 ≠ 0 then binMulWith add ans a else .ok ans) with
      | .error e => .error e
      | .ok ans1 =>
        match binMulWith add a a with
        | .error e => .error e
        | .ok a1 => powerLoopWith add fuel ans1 a1 (b >>> 1) := by
  rw [powerLoopWith, if_neg hb]

theorem addMod_wrap (x y : Int) : addMod addWrap64 x y = .ok ((wrap64 (x + y)).tmod M) := rfl

/-- With 64-bit sums the loop of `binMul` on non-positive accumulators mirrors the
exact loop on their negations. -/
theorem binMulLoopWith_wrap_neg_operands (fuel : Nat) :
    ∀ (ans a b v : Int), 0 ≤ ans → ans < M → 0 ≤ a → a < M →
      binMulLoop fuel ans a b = .ok v →
      binMulLoopWith addWrap64 fuel (-ans) (-a) b = .ok (-v) := by
  induction fuel with
  | zero =>
    intro ans a b v _ _ _ _ h
    unfold binMulLoop at h
    unfold binMulLoopWith
    by_cases hb : b = 0
    · rw [if_pos hb] at h ⊢
      injection h with h
      rw [h]
    · rw [if_neg hb] at h
      cases h
  | succ fuel ih =>
    intro ans a b v h0 h1 ha0 ha1 h
    by_cases hb : b = 0
    · unfold binMulLoop at h
      unfold binMulLoopWith
      rw [if_pos hb] at h ⊢
      injection h with h
      rw [h]
    · rw [binMulLoop, if_neg hb] at h
      rw [binMulLoopWith_step _ _ _ _ _ hb, addMod_wrap_neg a a ha0 ha1 ha0 ha1]
      have haa := tmod_M_range (by omega : 0 ≤ a + a)
      by_cases hbit : Int.land b 1 ≠ 0
      · rw [if_pos hbit] at h ⊢
        rw [addMod_wrap_neg ans a h0 h1 ha0 ha1]
        have hsum := tmod_M_range (by omega : 0 ≤ ans + a)
        exact ih _ _ _ v hsum.1 hsum.2 haa.1 haa.2 h
      · rw [if_neg hbit] at h ⊢
        exact ih _ _ _ v h0 h1 haa.1 haa.2 h

theorem binMulLoopWith_wrap_first (fuel : Nat) (ans a b : Int)
    (h0 : 0 ≤ ans) (h1 : ans < M) (ha0 : 0 ≤ a) (ha1 : a < 2 ^ 62) :
    binMulLoopWith addWrap64 fuel ans a b = binMulLoop fuel ans a b := by
  have hM : M = 998244353 := rfl
  cases fuel with
  | zero =>
    unfold binMulLoopWith binMulLoop
    rfl
  | succ fuel =>
    by_cases hb : b = 0
    · unfold binMulLoopWith binMulLoop
      rw [if_pos hb, if_pos hb]
    · rw [binMulLoopWith_step _ _ _ _ _ hb, binMulLoop, if_neg hb]
      have haa := tmod_M_range (by omega : 0 ≤ a + a)
      have e1 : addMod addWrap64 a a = .ok ((a + a).tmod M) := by
        rw [addMod, addWrap64_small a a (by omega) (by omega)]
      have e2 : addMod addWrap64 ans a = .ok ((ans + a).tmod M) := by
        rw [addMod, addWrap64_small ans a (by omega) (by omega)]
      rw [e1, e2]
      by_cases hbit : Int.land b 1 ≠ 0
      · rw [if_pos hbit, if_pos hbit]
        have hsum := tmod_M_range (by omega : 0 ≤ ans + a)
        exact (binMulLoopWith_eq addWrap64 addWrap64_agrees fuel _ _ _
          hsum.1 hsum.2 haa.1 haa.2).1
      · rw [if_neg hbit, if_neg hbit]
        exact (binMulLoopWith_eq addWrap64 addWrap64_agrees fuel _ _ _ h0 h1 haa.1 haa.2).1

theorem powerLoopWith_wrap (fuel : Nat) (ans a b : Int)
    (h0 : 0 ≤ ans) (h1 : ans < M) (ha0 : 0 ≤ a) (ha1 : a < 2 ^ 62) :
    powerLoopWith addWrap64 fuel ans a b = powerLoop fuel ans a b := by
  cases fuel with
  | zero =>
    unfold powerLoopWith powerLoop
    rfl
  | succ fuel =>
    by_cases hb : b = 0
    · unfold powerLoopWith powerLoop
      rw [if_pos hb, if_pos hb]
    · rw [powerLoopWith_step _ _ _ _ _ hb, powerLoop, if_neg hb]
      obtain ⟨e1, r1⟩ := binMulWith_eq addWrap64 addWrap64_agrees ans a h0 h1
      have e2 : binMulWith addWrap64 a a = binMul a a :=
        binMulLoopWith_wrap_first a.toNat 0 a a (le_refl _) (by decide) ha0 ha1
      have hsq : binMul a a = .ok (a * a % M) := binMul_eq ha0 ha0
      rw [e1, e2, hsq]
      dsimp only
      by_cases hbit : Int.land b 1 ≠ 0
      · rw [if_pos hbit]
        cases hm : binMul ans a with
        | error f => rfl
        | ok ans1 =>
          have rans := r1 ans1 hm
          exact powerLoopWith_eq addWrap64 addWrap64_agrees fuel _ _ _
            rans.1 rans.2 (emod_M_nonneg _) (emod_M_lt _)
      · rw [if_neg hbit]
        exact powerLoopWith_eq addWrap64 addWrap64_agrees fuel _ _ _
          h0 h1 (emod_M_nonneg _) (emod_M_lt _)

theorem powerWith_wrap (c y : Int) (hc0 : 0 ≤ c) (hc1 : c < 2 ^ 62) (hy : 0 ≤ y) (fuel : Nat)
    (hfuel : y.toNat ≤ fuel) :
    powerLoopWith addWrap64 fuel 1 c y = .ok (c ^ y.toNat % M) := by
  rw [powerLoopWith_wrap fuel 1 c y (by decide) (by decide) hc0 hc1]
  obtain ⟨m, rfl⟩ := Int.eq_ofNat_of_zero_le hy
  have h := powerLoop_nat fuel m 1 c (by simpa using hfuel) (by decide) (by decide) hc0
  simpa using h

theorem binMulLoopWith_wrap_succ (fuel : Nat) :
    ∀ (ans a b v : Int), binMulLoopWith addWrap64 fuel ans a b = .ok v →
      binMulLoopWith addWrap64 (fuel + 1) ans a b = .ok v := by
  induction fuel with
  | zero =>
    intro ans a b v h
    by_cases hb : b = 0
    · unfold binMulLoopWith at h ⊢
      rw [if_pos hb] at h ⊢
      exact h
    · unfold binMulLoopWith at h
      rw [if_neg hb] at h
      cases h
  | succ fuel ih =>
    intro ans a b v h
    by_cases hb : b = 0
    · unfold binMulLoopWith at h ⊢
      rw [if_pos hb] at h ⊢
      exact h
    · rw [binMulLoopWith_step _ _ _ _ _ hb, addMod_wrap] at h
      rw [binMulLoopWith_step _ _ _ _ _ hb, addMod_wrap]
      by_cases hbit : Int.land b 1 ≠ 0
      · rw [if_pos hbit, addMod_wrap] at h ⊢
        exact ih _ _ _ v h
      · rw [if_neg hbit] at h ⊢
        exact ih _ _ _ v h

theorem binMulLoopWith_wrap_mono (fuel1 fuel2 : Nat) (hle : fuel1 ≤ fuel2) (ans a b v : Int)
    (h : binMulLoopWith addWrap64 fuel1 ans a b = .ok v) :
    binMulLoopWith addWrap64 fuel2 ans a b = .ok v := by
  induction fuel2 with
  | zero =>
    have : fuel1 = 0 := by omega
    subst this
    exact h
  | succ fuel2 ih =>
    by_cases heq : fuel1 = fuel2 + 1
    · subst heq
      exact h
    · exact binMulLoopWith_wrap_succ fuel2 ans a b v (ih (by omega))

theorem binMulLoopWith_wrap_terminates (fuel : Nat) :
    ∀ (n : Nat) (ans a : Int), n ≤ fuel →
      ∃ v, binMulLoopWith addWrap64 fuel ans a (n : Int) = .ok v := by
  induction fuel with
  | zero =>
    intro n ans a hn
    have : n = 0 := by omega
    subst this
    exact ⟨ans, by simp [binMulLoopWith]⟩
  | succ fuel ih =>
    intro n ans a hn
    by_cases hz : n = 0
    · subst hz
      exact ⟨ans, by simp [binMulLoopWith]⟩
    · have hne : (n : Int) ≠ 0 := by exact_mod_cast hz
      rw [binMulLoopWith_step _ _ _ _ _ hne, addMod_wrap, shiftRight_one_natCast]
      by_cases hbit : Int.land (n : Int) 1 ≠ 0
      · rw [if_pos hbit, addMod_wrap]
        exact ih (n / 2) _ _ (by omega)
      · rw [if_neg hbit]
        exact ih (n / 2) _ _ (by omega)

theorem binMulLoopWith_wrap_neg (fuel : Nat) :
    ∀ (ans a b : Int), b < 0 → binMulLoopWith addWrap64 fuel ans a b = .error .diverges := by
  induction fuel with
  | zero =>
    intro ans a b hb
    have hne : b ≠ 0 := by omega
    unfold binMulLoopWith
    rw [if_neg hne]
  | succ fuel ih =>
    intro ans a b hb
    have hne : b ≠ 0 := by omega
    rw [binMulLoopWith_step _ _ _ _ _ hne, addMod_wrap]
    by_cases hbit : Int.land b 1 ≠ 0
    · rw [if_pos hbit, addMod_wrap]
      exact ih _ _ _ (shiftRight_one_neg hb)
    · rw [if_neg hbit]
      exact ih _ _ _ (shiftRight_one_neg hb)

theorem powerLoopWith_wrap_neg_base (fuel : Nat) (ans x b : Int) (hx : x < 0) (hb : b ≠ 0) :
    powerLoopWith addWrap64 fuel ans x b = .error .diverges := by
  have hmul : ∀ y : Int, binMulWith addWrap64 y x = .error .diverges :=
    fun y => binMulLoopWith_wrap_neg _ _ _ _ hx
  cases fuel with
  | zero =>
    unfold powerLoopWith
    rw [if_neg hb]
  | succ fuel =>
    rw [powerLoopWith_step _ _ _ _ _ hb, hmul ans, hmul x]
    by_cases hbit : Int.land b 1 ≠ 0
    · rw [if_pos hbit]
    · rw [if_neg hbit]

/-- In 64-bit arithmetic `binMul(2^62, 2^62)` returns a negative value: the first sum
`a+a` wraps to `-2^63`. -/
theorem binMulWith_wrap_overflow (fuel : Nat) (hfuel : 2305843009213693953 ≤ fuel) :
    binMulLoopWith addWrap64 fuel 0 4611686018427387904 4611686018427387904 =
      .ok (-18722504) := by
  obtain ⟨f, rfl⟩ : ∃ f, fuel = f + 1 := ⟨fuel - 1, by omega⟩
  have hb : (4611686018427387904 : Int) ≠ 0 := by decide
  have hbit : ¬ (Int.land 4611686018427387904 1 ≠ 0) := by decide
  have hdouble : addMod addWrap64 4611686018427387904 4611686018427387904 =
      .ok (-466025955) := by decide
  have hshift : ((4611686018427387904 : Int) >>> 1) = ((2305843009213693952 : Nat) : Int) := by
    decide
  rw [binMulLoopWith_step _ _ _ _ _ hb, if_neg hbit, hdouble, hshift]
  have hexact := binMulLoop_nat f 2305843009213693952 0 466025955 (by omega) (le_refl _)
    (by decide) (by decide)
  have hval : ((0 : Int) + 466025955 * ((2305843009213693952 : Nat) : Int)) % M = 18722504 := by
    decide
  rw [hval] at hexact
  exact binMulLoopWith_wrap_neg_operands f 0 466025955 _ 18722504 (le_refl _) (by decide)
    (by decide) (by decide) hexact

/-- C17, as stated, fails: `power (-1) 1` has exponent `1 ≥ 0`, but its call
`binMul(ans, a)` has the negative multiplier `a = -1`, whose loop never ends
(`-1 >> 1 = -1`); and in 64-bit arithmetic `power (2^62) 2` does not return
either, because the sum `a+a` in `binMul(a, a)` wraps and the square comes back
negative. -/
theorem C17_counterexample :
    power (-1) 1 = .error .diverges ∧ powerWith addWrap64 (-1) 1 = .error .diverges ∧
      binMul 1 (-1) = .error .diverges ∧
      binMulLoop 8 0 1 (-1) = .error .diverges ∧
      powerLoop 8 1 (-1) 1 = .error .diverges ∧ ((-1 : Int) >>> 1) = -1 ∧
      (4611686018427387904 : Int) = 2 ^ 62 ∧
      binMulWith addWrap64 4611686018427387904 4611686018427387904 = .ok (-18722504) ∧
      powerWith addWrap64 4611686018427387904 2 = .error .diverges := by
  have hmul : binMulWith addWrap64 4611686018427387904 4611686018427387904 =
      .ok (-18722504) := binMulWith_wrap_overflow 4611686018427387904 (by decide)
  have hpow : powerWith addWrap64 4611686018427387904 2 = .error .diverges := by
    show powerLoopWith addWrap64 (1 + 1) 1 4611686018427387904 2 = _
    rw [powerLoopWith_step _ _ _ _ _ (by decide),
      if_neg (show ¬ (Int.land 2 1 ≠ 0) by decide), hmul]
    exact powerLoopWith_wrap_neg_base 1 1 (-18722504) _ (by decide) (by decide)
  exact ⟨by decide, by decide, by decide, by decide, by decide, by decide, by decide,
    hmul, hpow⟩

/-- C17, amended: in 64-bit arithmetic (and with unbounded integers) `binMul x y`
terminates for every `x` and every `y ≥ 0`, and `power c y` terminates, with
value `c^y mod 998244353`, for every base `0 ≤ c < 2^62` and every `y ≥ 0`; on a
negative multiplier `z` the loop of `binMul` never ends, and `power z w` with a
negative base `z` and `w ≠ 0` never returns; for integer sequences `a`, `b` of
length `n`, negative values included, `solve` terminates, and at every position
where a candidate is selected both exponents passed to `power 2` are
non-negative, so that both calls return, in 64-bit arithmetic as well. -/
theorem C17_termination (a b : List Int) (n : Nat) (ha : a.length = n) (hb : b.length = n)
    (x y : Int) (hy : 0 ≤ y) (c : Int) (hc0 : 0 ≤ c) (hc1 : c < 2 ^ 62)
    (z w : Int) (hz : z < 0) (hw : w ≠ 0) :
    (∃ v, binMulWith addWrap64 x y = .ok v ∧
      ∀ fuel, y.toNat ≤ fuel → binMulLoopWith addWrap64 fuel 0 x y = .ok v) ∧
    (∃ v, binMul x y = .ok v ∧ ∀ fuel, y.toNat ≤ fuel → binMulLoop fuel 0 x y = .ok v) ∧
    (powerWith addWrap64 c y = .ok (c ^ y.toNat % 998244353) ∧
      ∀ fuel, y.toNat ≤ fuel →
        powerLoopWith addWrap64 fuel 1 c y = .ok (c ^ y.toNat % 998244353)) ∧
    (∀ fuel ans u, binMulLoopWith addWrap64 fuel ans u z = .error .diverges) ∧
    (∀ fuel, powerLoopWith addWrap64 fuel 1 z w = .error .diverges) ∧
    (∀ fuel, powerLoop fuel 1 z w = .error .diverges) ∧
    (∃ r, solve n a b = .ok r) ∧
    (∀ i, i < n → ∃ sel, selAt a b i = .ok sel ∧ (sel.ar = 0 ∨ sel.ar = 1 ∨ sel.ar = 2) ∧
      (sel.ar = 1 → ∃ e1 e2, index b sel.ix = .ok e1 ∧
        index a (((sel.ix - (i : Int)).natAbs : Nat) : Int) = .ok e2 ∧ 0 ≤ e1 ∧ 0 ≤ e2 ∧
        (∃ p, powerWith addWrap64 2 e1 = .ok p ∧ power 2 e1 = .ok p) ∧
        (∃ q, powerWith addWrap64 2 e2 = .ok q ∧ power 2 e2 = .ok q)) ∧
      (sel.ar = 2 → ∃ e1 e2, index a sel.ix = .ok e1 ∧
        index b (((sel.ix - (i : Int)).natAbs : Nat) : Int) = .ok e2 ∧ 0 ≤ e1 ∧ 0 ≤ e2 ∧
        (∃ p, powerWith addWrap64 2 e1 = .ok p ∧ power 2 e1 = .ok p) ∧
        (∃ q, powerWith addWrap64 2 e2 = .ok q ∧ power 2 e2 = .ok q))) := by
  have hM : (998244353 : Int) = M := rfl
  obtain ⟨m, rfl⟩ := Int.eq_ofNat_of_zero_le hy
  refine ⟨?_, ?_, ?_, ?_, ?_, ?_, ?_, ?_⟩
  · obtain ⟨v, hv⟩ := binMulLoopWith_wrap_terminates m m 0 x (le_refl _)
    refine ⟨v, by simpa [binMulWith] using hv, ?_⟩
    intro fuel hfuel
    exact binMulLoopWith_wrap_mono m fuel (by simpa using hfuel) 0 x _ v hv
  · obtain ⟨v, hv⟩ := binMulLoop_terminates m m 0 x (le_refl _)
    refine ⟨v, by simpa [binMul] using hv, ?_⟩
    intro fuel hfuel
    exact binMulLoop_mono m fuel (by simpa using hfuel) 0 x _ v hv
  · rw [hM]
    exact ⟨powerWith_wrap c _ hc0 hc1 hy _ (le_refl _),
      fun fuel hfuel => powerWith_wrap c _ hc0 hc1 hy fuel hfuel⟩
  · intro fuel ans u
    exact binMulLoopWith_wrap_neg fuel ans u z hz
  · intro fuel
    exact powerLoopWith_wrap_neg_base fuel 1 z w hz hw
  · intro fuel
    exact powerLoop_neg_base fuel 1 z w hz hw
  · obtain ⟨r, hr, _⟩ := solve_spec a b n ha hb
    exact ⟨r, hr⟩
  · intro i hi
    have hia : i < a.length := by omega
    have hib : i < b.length := by omega
    obtain ⟨m2, K, t, sel, hm, hrb, hsel, _, _, _, hcase⟩ := position_spec a b i hia hib
    have hs : selAt a b i = .ok sel := by rw [(selAt_eq a b i m2 K t hm hrb).2, hsel]
    have hpow : ∀ e : Int, 0 ≤ e →
        ∃ p, powerWith addWrap64 2 e = .ok p ∧ power 2 e = .ok p := by
      intro e he
      refine ⟨2 ^ e.toNat % M, ?_, power_eq (by decide) he⟩
      rw [powerWith_two addWrap64 addWrap64_agrees e]
      exact power_eq (by decide) he
    refine ⟨sel, hs, ?_⟩
    rcases hcase with ⟨heq, _⟩ | ⟨pre, e, post, j, _, hji, _, _, hix, har, hmx0, hmxK, _, _, h⟩
    · rw [heq]
      refine ⟨Or.inl rfl, ?_, ?_⟩
      · intro h1
        exact absurd h1 (by decide)
      · intro h2
        exact absurd h2 (by decide)
    · have habs : (((sel.ix - (i : Int)).natAbs : Nat) : Int) = (j : Int) := by
        rw [hix]
        omega
      have hK0 : 0 ≤ K := le_trans hmx0 hmxK
      rcases h with ⟨htag, h3, h4, _⟩ | ⟨htag, h3, h4, _⟩
      · have h1 : sel.ar = 1 := har.trans htag
        have h2 : ¬ sel.ar = 2 := by rw [h1]; decide
        refine ⟨Or.inr (Or.inl h1), ?_, fun h => absurd h h2⟩
        intro _
        refine ⟨sel.mx, K, ?_, ?_, hmx0, hK0, hpow _ hmx0, hpow _ hK0⟩
        · rw [hix]
          exact index_natCast b _ _ h4
        · rw [habs]
          exact index_natCast a _ _ h3
      · have h2 : sel.ar = 2 := har.trans htag
        have h1 : ¬ sel.ar = 1 := by rw [h2]; decide
        refine ⟨Or.inr (Or.inr h2), fun h => absurd h h1, ?_⟩
        intro _
        refine ⟨sel.mx, K, ?_, ?_, hmx0, hK0, hpow _ hmx0, hpow _ hK0⟩
        · rw [hix]
          exact index_natCast a _ _ h4
        · rw [habs]
          exact index_natCast b _ _ h3

/-- Witness of C17 (amended) at `a = [1,-5]`, `b = [-3,2]`, `x = -4`, `y = 6`, `c = 3`,
`z = -4`, `w = 6`. -/
theorem C17_termination_witness :
    (∃ v, binMulWith addWrap64 (-4) 6 = .ok v ∧
      ∀ fuel, (6 : Int).toNat ≤ fuel → binMulLoopWith addWrap64 fuel 0 (-4) 6 = .ok v) ∧
    (∃ v, binMul (-4) 6 = .ok v ∧
      ∀ fuel, (6 : Int).toNat ≤ fuel → binMulLoop fuel 0 (-4) 6 = .ok v) ∧
    (powerWith addWrap64 3 6 = .ok (3 ^ (6 : Int).toNat % 998244353) ∧
      ∀ fuel, (6 : Int).toNat ≤ fuel →
        powerLoopWith addWrap64 fuel 1 3 6 = .ok (3 ^ (6 : Int).toNat % 998244353)) ∧
    (∀ fuel ans u, binMulLoopWith addWrap64 fuel ans u (-4) = .error .diverges) ∧
    (∀ fuel, powerLoopWith addWrap64 fuel 1 (-4) 6 = .error .diverges) ∧
    (∀ fuel, powerLoop fuel 1 (-4) 6 = .error .diverges) ∧
    (∃ r, solve 2 [1, -5] [-3, 2] = .ok r) ∧
    (∀ i, i < 2 → ∃ sel, selAt [1, -5] [-3, 2] i = .ok sel ∧
      (sel.ar = 0 ∨ sel.ar = 1 ∨ sel.ar = 2) ∧
      (sel.ar = 1 → ∃ e1 e2, index [-3, 2] sel.ix = .ok e1 ∧
        index [1, -5] (((sel.ix - (i : Int)).natAbs : Nat) : Int) = .ok e2 ∧ 0 ≤ e1 ∧ 0 ≤ e2 ∧
        (∃ p, powerWith addWrap64 2 e1 = .ok p ∧ power 2 e1 = .ok p) ∧
        (∃ q, powerWith addWrap64 2 e2 = .ok q ∧ power 2 e2 = .ok q)) ∧
      (sel.ar = 2 → ∃ e1 e2, index [1, -5] sel.ix = .ok e1 ∧
        index [-3, 2] (((sel.ix - (i : Int)).natAbs : Nat) : Int) = .ok e2 ∧ 0 ≤ e1 ∧ 0 ≤ e2 ∧
        (∃ p, powerWith addWrap64 2 e1 = .ok p ∧ power 2 e1 = .ok p) ∧
        (∃ q, powerWith addWrap64 2 e2 = .ok q ∧ power 2 e2 = .ok q))) :=
  C17_termination [1, -5] [-3, 2] 2 rfl rfl (-4) 6 (by decide) 3 (by decide) (by decide)
    (-4) 6 (by decide) (by decide)

end CP
